import Mathlib

/-!
# ScriptChecker: the script registry, its directory walk, the callbacks and the driver

A shallow embedding of `checker.cpp`.  Strings (`std::string`, `const char*`) are lists of
characters, `fs::path` values are strings in the generic (slash separated) format,
`std::map` is an association list with insert-if-absent `emplace`, the process globals
(`status_code`, `loading_card`, `scripts`, `non_card_scripts`) are the fields of `State`,
and the calls made to the dynamically loaded engine are recorded in `State.calls`.
What the engine does during a call is a tree of callback invocations (`Behaviour`), so
that the callbacks may be entered again while a script is being loaded.
-/

namespace ScriptChecker

/-! ## Strings and paths -/

/-- A `std::string`: a sequence of characters. -/
abbrev Str := List Char

/-- An `fs::path`, kept as its generic-format pathname. -/
abbrev Path := Str

/-- Position of the last occurrence of `c` in `s` (`std::string::rfind`), `none` for `npos`. -/
def rfind (c : Char) : Str → Option Nat
  | [] => none
  | x :: xs =>
    match rfind c xs with
    | some i => some (i + 1)
    | none => if x = c then some 0 else none

/-- The `path::filename()` component: what follows the last directory separator. -/
def filename (p : Path) : Str :=
  match rfind '/' p with
  | none => p
  | some i => p.drop (i + 1)

/-- Where the extension of a filename starts: the last period, unless the filename is
`.` or `..`, has no period, or its only period is the leading one. -/
def extensionPos (f : Str) : Option Nat :=
  if f = ['.'] ∨ f = ['.', '.'] then none
  else
    match rfind '.' f with
    | none => none
    | some 0 => none
    | some (i + 1) => some (i + 1)

/-- The `path::stem()` of a path: its filename without the extension. -/
def stem (p : Path) : Str :=
  match extensionPos (filename p) with
  | none => filename p
  | some i => (filename p).take i

/-- The `path::extension()` of a path: the suffix of the filename not in the stem. -/
def extension (p : Path) : Str :=
  match extensionPos (filename p) with
  | none => []
  | some i => (filename p).drop i

/-! ## `std::stoul` -/

/-- The `isspace` of the C locale: space, and the controls `\t \n \v \f \r`. -/
def isspace (c : Char) : Bool :=
  c.toNat == 32 || (9 ≤ c.toNat && c.toNat ≤ 13)

/-- The `isdigit` of the C locale. -/
def isdigit (c : Char) : Bool :=
  48 ≤ c.toNat && c.toNat ≤ 57

/-- Value of a run of decimal digits, most significant first. -/
def digitsValue (ds : Str) : Nat :=
  ds.foldl (fun acc c => 10 * acc + (c.toNat - 48)) 0

/-- What follows one optional sign at the start of `s`. -/
def skipSign (s : Str) : Str :=
  if s.head? == some '-' || s.head? == some '+' then s.drop 1 else s

/-- The call `std::stoul(s)` (base 10) for an `unsigned long` of `ulongBits` bits.
`strtoul` skips leading white space, takes one optional sign, then the longest run of
digits, and ignores whatever follows.  `none` stands for the two exceptions:
`invalid_argument` (no digit was read) and `out_of_range` (the magnitude exceeds
`ULONG_MAX`).  A minus sign negates the magnitude in unsigned arithmetic. -/
def stoul (ulongBits : Nat) (s : Str) : Option Nat :=
  let s1 := s.dropWhile isspace
  let neg := s1.head? == some '-'
  let ds := (skipSign s1).takeWhile isdigit
  if ds = [] then none
  else if 2 ^ ulongBits - 1 < digitsValue ds then none
  else some (if neg then (2 ^ ulongBits - digitsValue ds) % 2 ^ ulongBits else digitsValue ds)

/-! ## Filename classification -/

/-- Source `isCardScript`: the stem starts with `c` (the empty stem reads its terminating
NUL) and the extension is `.lua`. -/
def isCardScript (p : Path) : Bool :=
  (stem p).headD (Char.ofNat 0) == 'c' && extension p == ".lua".toList

/-- Source `tryParseCode`: the `uint32_t` read by `stoul` after the leading `c`, or
`nullopt` when the file is not card shaped or `stoul` throws. -/
def tryParseCode (ulongBits : Nat) (p : Path) : Option Nat :=
  if !isCardScript p then none
  else
    match stoul ulongBits ((stem p).drop 1) with
    | some v => some (v % 2 ^ 32)
    | none => none

/-- Source `mustNotParseAsCard`. -/
def mustNotParseAsCard (code : Nat) : Bool :=
  (code ≥ 419 && code ≤ 422) || code == 151000000

/-! ## The registry -/

/-- Lookup in a `std::map` held as an association list (`map::find`). -/
def find {κ : Type} [DecidableEq κ] (k : κ) : List (κ × Path) → Option Path
  | [] => none
  | (k1, v1) :: m => if k1 = k then some v1 else find k m

/-- Insert-if-absent (`map::emplace`): an existing key keeps its value. -/
def emplace {κ : Type} [DecidableEq κ] (k : κ) (v : Path) : List (κ × Path) → List (κ × Path)
  | [] => [(k, v)]
  | (k1, v1) :: m => if k1 = k then (k1, v1) :: m else (k1, v1) :: emplace k v m

/-- Record of `OCG_NewCardInfo` as filled by `main`. -/
structure NewCardInfo where
  team : Nat
  duelist : Nat
  code : Nat
  con : Nat
  loc : Nat
  seq : Nat
  pos : Nat
  deriving DecidableEq, Repr

/-- A call made through one of the five entry points of the engine library. -/
inductive EngineCall where
  | GetVersion
  | CreateDuel
  | DestroyDuel
  | DuelNewCard (info : NewCardInfo)
  | LoadScript (buffer : Str) (length : Nat) (name : Str)
  deriving DecidableEq, Repr

/-- The process globals, the calls made to the engine so far (oldest first), and whether
the process has been terminated by an exception that nothing catches. -/
structure State where
  status_code : Int
  loading_card : Nat
  scripts : List (Nat × Path)
  non_card_scripts : List (Str × Path)
  calls : List EngineCall
  aborted : Bool
  deriving DecidableEq, Repr

def EXIT_SUCCESS : Int := 0

def EXIT_FAILURE : Int := 1

/-- The globals at program start. -/
def State.init : State :=
  { status_code := EXIT_SUCCESS, loading_card := 0, scripts := [], non_card_scripts := [],
    calls := [], aborted := false }

/-- Source `parseScript`, applied to the path of a directory entry. -/
def parseScript (ulongBits : Nat) (path : Path) (s : State) : State :=
  match tryParseCode ulongBits (filename path) with
  | some code =>
    if !mustNotParseAsCard code then
      { s with scripts := emplace code path s.scripts }
    else if extension (filename path) == ".lua".toList then
      { s with non_card_scripts := emplace (filename path) path s.non_card_scripts }
    else s
  | none =>
    if extension (filename path) == ".lua".toList then
      { s with non_card_scripts := emplace (filename path) path s.non_card_scripts }
    else s

/-- Feeding a sequence of regular files to `parseScript`, in order. -/
def parseScripts (ulongBits : Nat) (files : List Path) (s : State) : State :=
  files.foldl (fun st path => parseScript ulongBits path st) s

/-- The code under which `parseScript` files a path in `scripts`, if it does so: the key
it adds to the empty registry. -/
def codeKey (ulongBits : Nat) (path : Path) : Option Nat :=
  (parseScript ulongBits path State.init).scripts.head?.map Prod.fst

/-- The name under which `parseScript` files a path in `non_card_scripts`, if it does so:
the key it adds to the empty registry. -/
def nameKey (ulongBits : Nat) (path : Path) : Option Str :=
  (parseScript ulongBits path State.init).non_card_scripts.head?.map Prod.fst

/-! ## Loading a script and the script-source lookup -/

/-- What happens when `loadScript` opens a file and reads it to the end: the stream
fails to open, the whole content is read, or the file opens and the read throws. -/
inductive FileRead where
  | cannotOpen
  | content (buffer : Str)
  | readFails
  deriving DecidableEq, Repr

/-- Source `loadScript`.  `files path` tells how opening and reading the file goes;
`OCG_LoadScript` is the entry point of the engine, which may change the globals through
the callbacks it invokes before it returns.  An exception thrown by the read is caught
nowhere up to `main`: the process is terminated, which is recorded in `aborted`, and
nothing the model computes from there on is ever observed (`main` does not return). -/
def loadScript (files : Path → FileRead)
    (OCG_LoadScript : Str → Nat → Str → State → Int × State)
    (path : Path) (s : State) : Bool × State :=
  match files path with
  | .cannotOpen => (false, s)
  | .readFails => (false, { s with aborted := true })
  | .content buffer =>
    if buffer.length = 0 then (false, s)
    else
      let r := OCG_LoadScript buffer (buffer.length % 2 ^ 32) (filename path)
        { s with calls := s.calls ++
            [EngineCall.LoadScript buffer (buffer.length % 2 ^ 32) (filename path)] }
      (r.1 != 0, r.2)

/-- Source `opts.scriptReader`: the value returned to the engine and the globals after. -/
def scriptReader (ulongBits : Nat) (files : Path → FileRead)
    (OCG_LoadScript : Str → Nat → Str → State → Int × State)
    (name : Str) (s : State) : Int × State :=
  let viaName : Int × State :=
    match find name s.non_card_scripts with
    | none => (0, { s with status_code := EXIT_FAILURE })
    | some script_path =>
      let r := loadScript files OCG_LoadScript script_path s
      (if r.1 then 1 else 0, r.2)
  match tryParseCode ulongBits name with
  | some code =>
    if !mustNotParseAsCard code then
      match find code s.scripts with
      | none => (0, if code != 0 then { s with status_code := EXIT_FAILURE } else s)
      | some script_path =>
        let r := loadScript files OCG_LoadScript script_path s
        (if r.1 then 1 else 0, r.2)
    else viaName
  | none => viaName

/-! ## The directory walk -/

/-- A node of the file system below a scan root.  The children of a directory are listed
in the order in which the directory iterator enumerates them. -/
inductive Node where
  | file
  | other
  | dir (children : List (Str × Node))

mutual
/-- Number of nodes of a tree. -/
def Node.size : Node → Nat
  | .file => 1
  | .other => 1
  | .dir cs => 1 + sizeEntries cs
/-- Number of nodes of a list of named trees. -/
def sizeEntries : List (Str × Node) → Nat
  | [] => 0
  | (_, n) :: es => n.size + sizeEntries es
end

/-- The `operator/` of `fs::path` for a relative right operand. -/
def joinPath (d : Path) (name : Str) : Path :=
  if d = [] ∨ d.getLast? = some '/' then d ++ name else d ++ '/' :: name

/-- One open directory of a `recursive_directory_iterator`: the names of the directories
leading to it from the scan root, the entry it stands on, and the entries still to come. -/
structure Frame where
  dir : List Str
  cur : Str × Node
  rest : List (Str × Node)

/-- A `recursive_directory_iterator`: its stack of open directories (innermost first) and
its `recursion_pending` flag.  The empty stack is the end iterator. -/
structure Iter where
  stack : List Frame
  pending : Bool

/-- The iterator `recursive_directory_iterator(path)` for a root with the given entries. -/
def Iter.start : List (Str × Node) → Iter
  | [] => ⟨[], true⟩
  | c :: cs => ⟨[⟨[], c, cs⟩], true⟩

/-- Value of `depth()`. -/
def Iter.depth (it : Iter) : Nat := it.stack.length - 1

/-- Move the innermost directory to its next entry; a directory that has none is closed
and its parent is moved on instead. -/
def advance : List Frame → List Frame
  | [] => []
  | f :: fs =>
    match f.rest with
    | e :: es => { f with cur := e, rest := es } :: fs
    | [] => advance fs

/-- The call `pop()`: stop iterating the current directory and continue with the parent. -/
def Iter.pop (it : Iter) : Iter :=
  { it with stack := advance (it.stack.drop 1) }

/-- The call `disable_recursion_pending()`. -/
def Iter.disable_recursion_pending (it : Iter) : Iter :=
  { it with pending := false }

/-- The increment `++it`: enter the current entry when it is a non-empty directory and
recursion is pending, otherwise move on; `recursion_pending` is true afterwards.
`none`: the increment was applied to the end iterator, which the library does not allow. -/
def Iter.increment (it : Iter) : Option Iter :=
  match it.stack with
  | [] => none
  | f :: fs =>
    match it.pending, f.cur with
    | true, (name, .dir (c :: cs)) => some ⟨⟨f.dir ++ [name], c, cs⟩ :: f :: fs, true⟩
    | _, _ => some ⟨advance (f :: fs), true⟩

/-- A directory entry handed to `parseScript`: the directories between the scan root and
the entry, and the name of the entry. -/
structure Entry where
  parent : List Str
  name : Str
  deriving DecidableEq, Repr

/-- Path of an entry found under `root`. -/
def entryPath (root : Path) (parent : List Str) (name : Str) : Path :=
  (parent ++ [name]).foldl joinPath root

/-- How a walk ended: the loop condition failed (`finished`), the increment of the loop
was applied to the end iterator (`incrementedEnd`), or the step budget ran out. -/
inductive Outcome where
  | finished
  | incrementedEnd
  | outOfFuel
  deriving DecidableEq, Repr

/-- Result of a walk: how it ended, the globals, and the entries given to `parseScript`
in the order of the calls. -/
structure Walk where
  outcome : Outcome
  state : State
  parsed : List Entry
  deriving DecidableEq, Repr

/-- One round of the loop of `parseScriptFolder` on a dereferenceable iterator whose
innermost directory is `f`: the body, then the `++it` of the loop. -/
def loopBody (ulongBits : Nat) (root : Path) (f : Frame) (it : Iter) (s : State)
    (parsed : List Entry) : Option Iter × State × List Entry :=
  if it.depth > 1 then
    (it.pop.increment, s, parsed)
  else
    match f.cur with
    | (name, .dir _) =>
      if (filename (entryPath root f.dir name)).headD (Char.ofNat 0) == '.' then
        (it.disable_recursion_pending.increment, s, parsed)
      else (it.increment, s, parsed)
    | (name, .file) =>
      (it.increment, parseScript ulongBits (entryPath root f.dir name) s,
        parsed ++ [⟨f.dir, name⟩])
    | (_, .other) => (it.increment, s, parsed)

/-- The loop of `parseScriptFolder`, for at most `fuel` rounds. -/
def walkLoop (ulongBits : Nat) (root : Path) :
    Nat → Iter → State → List Entry → Walk
  | fuel, it, s, parsed =>
    match it.stack with
    | [] => ⟨.finished, s, parsed⟩
    | f :: _ =>
      match fuel with
      | 0 => ⟨.outOfFuel, s, parsed⟩
      | fuel + 1 =>
        match loopBody ulongBits root f it s parsed with
        | (none, s1, parsed1) => ⟨.incrementedEnd, s1, parsed1⟩
        | (some it1, s1, parsed1) => walkLoop ulongBits root fuel it1 s1 parsed1

/-- Source `parseScriptFolder` on a root directory holding `tree`.  Every round of the loop
leaves at least one node behind, so the number of nodes bounds the number of rounds. -/
def parseScriptFolder (ulongBits : Nat) (root : Path) (tree : List (Str × Node))
    (s : State) : Walk :=
  walkLoop ulongBits root (sizeEntries tree) (Iter.start tree) s []

/-! ## The callbacks and the engine -/

/-- Modelled from the spec: the severities of `OCG_LogTypes`, declared in the absent header
`ocgapi_types.h`: error, from script, for debug, undefined. -/
inductive OCG_LogTypes where
  | OCG_LOG_TYPE_ERROR
  | OCG_LOG_TYPE_FROM_SCRIPT
  | OCG_LOG_TYPE_FOR_DEBUG
  | OCG_LOG_TYPE_UNDEFINED
  deriving DecidableEq, Repr

/-- Source `getLogLevelString`. -/
def getLogLevelString : OCG_LogTypes → Str
  | .OCG_LOG_TYPE_ERROR => "Error".toList
  | .OCG_LOG_TYPE_FROM_SCRIPT => "From script".toList
  | .OCG_LOG_TYPE_FOR_DEBUG => "For debug".toList
  | .OCG_LOG_TYPE_UNDEFINED => "Undefined".toList

/-- The character of a decimal digit. -/
def digitChar (d : Nat) : Char := Char.ofNat (48 + d)

/-- Decimal digits of `n` in front of `acc`, most significant first; `fuel` bounds the
number of digits. -/
def decimalAux : Nat → Nat → Str → Str
  | 0, _, acc => acc
  | fuel + 1, n, acc =>
    if n < 10 then digitChar n :: acc
    else decimalAux fuel (n / 10) (digitChar (n % 10) :: acc)

/-- The decimal text of a natural number, without leading zeros. -/
def decimal (n : Nat) : Str := decimalAux (n + 1) n []

/-- Source `opts.logHandler`: the globals after the call and the line written to the
diagnostic stream (`loading_card` is printed with `%d`, as a signed 32-bit value). -/
def logHandler (string : Str) (type : OCG_LogTypes) (s : State) : State × Str :=
  ({ s with status_code := EXIT_FAILURE },
    getLogLevelString type ++ ": ".toList ++ string ++ ", while parsing c".toList ++
      (if s.loading_card % 2 ^ 32 < 2 ^ 31 then decimal (s.loading_card % 2 ^ 32)
        else '-' :: decimal (2 ^ 32 - s.loading_card % 2 ^ 32)) ++ ".lua\n".toList)

/-- Modelled from the spec: the record `OCG_CardData` of the absent header, reduced to its
code field and one field standing for all the others. -/
structure OCG_CardData where
  code : Nat
  others : Nat
  deriving DecidableEq, Repr

/-- Source `opts.cardReader`: only the code field of the record is written. -/
def cardReader (code : Nat) (data : OCG_CardData) (s : State) : OCG_CardData × State :=
  ({ data with code := code }, s)

/-- What the engine does during one call of an entry point: it returns, or invokes one of
the three callbacks and goes on according to what the callback returned.  In the
`scriptReader` node, `load buffer length name` is what the engine does during the
`OCG_LoadScript` call that the callback may make before returning. -/
inductive Behaviour where
  | ret (result : Int)
  | cardReader (code : Nat) (next : Behaviour)
  | scriptReader (name : Str) (load : Str → Nat → Str → Behaviour) (next : Int → Behaviour)
  | logHandler (string : Str) (type : OCG_LogTypes) (next : Behaviour)

/-- Running one engine call against the callbacks of the checker: the value the entry
point returns and the globals after it. -/
def run (ulongBits : Nat) (files : Path → FileRead) : Behaviour → State → Int × State
  | .ret result, s => (result, s)
  | .cardReader code next, s => run ulongBits files next (cardReader code ⟨0, 0⟩ s).2
  | .scriptReader name load next, s =>
    let r := scriptReader ulongBits files
      (fun buffer length nm st => run ulongBits files (load buffer length nm) st) name s
    run ulongBits files (next r.1) r.2
  | .logHandler string type next, s => run ulongBits files next (logHandler string type s).1

/-! ## The driver -/

/-- The constants of the absent header `ocgapi_types.h` that `main` compares against. -/
structure ApiConstants where
  OCG_VERSION_MAJOR : Int
  OCG_VERSION_MINOR : Int
  OCG_DUEL_CREATION_SUCCESS : Int

/-- The library returned by `LoadCore()`: which of the five entry points `GetFunction`
finds, the version the engine reports, and what the engine does during each call. -/
structure Core where
  has_GetVersion : Bool
  has_CreateDuel : Bool
  has_DuelNewCard : Bool
  has_DestroyDuel : Bool
  has_LoadScript : Bool
  major : Int
  minor : Int
  OCG_CreateDuel : Behaviour
  OCG_DestroyDuel : Behaviour
  OCG_DuelNewCard : NewCardInfo → Behaviour
  OCG_LoadScript : Str → Nat → Str → Behaviour

def LOCATION_DECK : Nat := 0x01

def POS_FACEDOWN : Nat := 0xa

/-- A call of an entry point other than `OCG_LoadScript`: the call is recorded, then the
engine runs. -/
def callEngine (ulongBits : Nat) (files : Path → FileRead) (call : EngineCall)
    (b : Behaviour) (s : State) : Int × State :=
  run ulongBits files b { s with calls := s.calls ++ [call] }

/-- The call `loadScript(path)` made by `main` itself. -/
def loadBaseScript (ulongBits : Nat) (files : Path → FileRead) (core : Core)
    (path : Path) (s : State) : Bool × State :=
  loadScript files
    (fun buffer length name st => run ulongBits files (core.OCG_LoadScript buffer length name) st)
    path s

/-- The call `OCG_GetVersion(&major, &minor)`. -/
def getVersion (s : State) : State :=
  { s with calls := s.calls ++ [EngineCall.GetVersion] }

/-- The call `OCG_CreateDuel(&pduel, opts)`. -/
def createDuel (ulongBits : Nat) (files : Path → FileRead) (core : Core) (s : State) :
    Int × State :=
  callEngine ulongBits files EngineCall.CreateDuel core.OCG_CreateDuel s

/-- The call `OCG_DestroyDuel(pduel)`. -/
def destroyDuel (ulongBits : Nat) (files : Path → FileRead) (core : Core) (s : State) :
    State :=
  (callEngine ulongBits files EngineCall.DestroyDuel core.OCG_DestroyDuel s).2

/-- The record passed to `OCG_DuelNewCard` for a code. -/
def cardInfo (code : Nat) : NewCardInfo :=
  { team := 0, duelist := 0, code := code, con := 0, loc := LOCATION_DECK, seq := 1,
    pos := POS_FACEDOWN }

/-- One round of the loop over `scripts`: `loading_card` is set, then the card is
instantiated. -/
def newCard (ulongBits : Nat) (files : Path → FileRead) (core : Core) (s : State)
    (code : Nat) : State :=
  (callEngine ulongBits files (EngineCall.DuelNewCard (cardInfo code))
    (core.OCG_DuelNewCard (cardInfo code)) { s with loading_card := code }).2

/-- The codes of `scripts` in the order in which a `std::map` is iterated. -/
def codesInOrder (s : State) : List Nat :=
  (s.scripts.map Prod.fst).insertionSort (fun a b => a ≤ b)

/-- The loop of `main` over `scripts`. -/
def newCards (ulongBits : Nat) (files : Path → FileRead) (core : Core) (s : State) :
    State :=
  (codesInOrder s).foldl (newCard ulongBits files core) s

/-- The return statement through which `main` is left. -/
inductive ExitPath where
  | noBaseScripts
  | noCore
  | noFunctions
  | badVersion
  | creationFailed
  | constantFailed
  | utilityFailed
  | completed
  deriving DecidableEq, Repr

/-- What `main` returns, through which return statement, and the globals at that point. -/
structure MainResult where
  returned : Int
  path : ExitPath
  state : State
  deriving DecidableEq, Repr

/-- Source `main` from the check of the entry points to the end, for a loaded library `c`
and the registered paths of `utility.lua` and `constant.lua`. -/
def session (api : ApiConstants) (ulongBits : Nat) (files : Path → FileRead) (c : Core)
    (utility constant : Path) (s : State) : MainResult :=
  if !(c.has_GetVersion && c.has_CreateDuel && c.has_DuelNewCard && c.has_DestroyDuel
      && c.has_LoadScript) then ⟨EXIT_FAILURE, .noFunctions, s⟩
  else if c.major ≠ api.OCG_VERSION_MAJOR ∨ c.minor < api.OCG_VERSION_MINOR then
    ⟨EXIT_FAILURE, .badVersion, getVersion s⟩
  else if (createDuel ulongBits files c (getVersion s)).1 ≠ api.OCG_DUEL_CREATION_SUCCESS then
    ⟨EXIT_FAILURE, .creationFailed,
      destroyDuel ulongBits files c (createDuel ulongBits files c (getVersion s)).2⟩
  else
    let constantLoaded :=
      loadBaseScript ulongBits files c constant (createDuel ulongBits files c (getVersion s)).2
    if !constantLoaded.1 then ⟨EXIT_FAILURE, .constantFailed, constantLoaded.2⟩
    else
      let utilityLoaded := loadBaseScript ulongBits files c utility constantLoaded.2
      if !utilityLoaded.1 then ⟨EXIT_FAILURE, .utilityFailed, utilityLoaded.2⟩
      else
        let destroyed :=
          destroyDuel ulongBits files c (newCards ulongBits files c utilityLoaded.2)
        ⟨destroyed.status_code, .completed, destroyed⟩

/-- Source `main` after the scan: from the lookup of the two base scripts to the end. -/
def driver (api : ApiConstants) (ulongBits : Nat) (files : Path → FileRead)
    (core : Option Core) (s : State) : MainResult :=
  match find "utility.lua".toList s.non_card_scripts,
      find "constant.lua".toList s.non_card_scripts with
  | some utility, some constant =>
    match core with
    | none => ⟨EXIT_FAILURE, .noCore, s⟩
    | some c => session api ulongBits files c utility constant s
  | _, _ => ⟨EXIT_FAILURE, .noBaseScripts, s⟩

/-- How many times a call was made to the engine. -/
def countCall (c : EngineCall) (s : State) : Nat := s.calls.count c

/-- The scan of `main` over the folders passed on the command line; `none` when a walk
does not end normally, in which case `main` never returns. -/
def scanFolders (ulongBits : Nat) :
    List (Path × List (Str × Node)) → State → Option State
  | [], s => some s
  | (root, tree) :: rest, s =>
    match (parseScriptFolder ulongBits root tree s).outcome with
    | .finished => scanFolders ulongBits rest (parseScriptFolder ulongBits root tree s).state
    | _ => none

/-- The folders `main` scans: those named on the command line, or the current directory
when none is named. -/
def foldersToScan (cwd : List (Str × Node)) :
    List (Path × List (Str × Node)) → List (Path × List (Str × Node))
  | [] => [(".".toList, cwd)]
  | a :: rest => a :: rest

/-- Source `main`.  `argv` holds the folders named on the command line, each with the tree
found there, and `cwd` the tree of the current directory.  `none`: `main` does not
return, because a walk or the read of a file terminates the process. -/
def main (api : ApiConstants) (ulongBits : Nat) (files : Path → FileRead)
    (core : Option Core) (cwd : List (Str × Node)) (argv : List (Path × List (Str × Node))) :
    Option MainResult :=
  match scanFolders ulongBits (foldersToScan cwd argv) State.init with
  | none => none
  | some s =>
    if (driver api ulongBits files core s).state.aborted then none
    else some (driver api ulongBits files core s)

/-- No fatal step occurs in `main` after a scan that left the globals `s`, and `t` are the
globals after the last card has been instantiated: both base scripts are registered, the
library and its five entry points are loaded, the version is accepted, the session is
created, and `constant.lua` and `utility.lua` are loaded. -/
def NoFatalStep (api : ApiConstants) (ulongBits : Nat) (files : Path → FileRead)
    (core : Option Core) (s t : State) : Prop :=
  ∃ utility constant c,
    find "utility.lua".toList s.non_card_scripts = some utility ∧
    find "constant.lua".toList s.non_card_scripts = some constant ∧
    core = some c ∧
    (c.has_GetVersion = true ∧ c.has_CreateDuel = true ∧ c.has_DuelNewCard = true ∧
      c.has_DestroyDuel = true ∧ c.has_LoadScript = true) ∧
    (c.major = api.OCG_VERSION_MAJOR ∧ api.OCG_VERSION_MINOR ≤ c.minor) ∧
    (createDuel ulongBits files c (getVersion s)).1 = api.OCG_DUEL_CREATION_SUCCESS ∧
    (loadBaseScript ulongBits files c constant
      (createDuel ulongBits files c (getVersion s)).2).1 = true ∧
    (loadBaseScript ulongBits files c utility
      (loadBaseScript ulongBits files c constant
        (createDuel ulongBits files c (getVersion s)).2).2).1 = true ∧
    t = newCards ulongBits files c
      (loadBaseScript ulongBits files c utility
        (loadBaseScript ulongBits files c constant
          (createDuel ulongBits files c (getVersion s)).2).2).2

/-! ## Predicates used in the statements about the registry and the status -/

/-- The registry invariant: no excluded code is a key of `scripts`, every entry of
`scripts` is keyed by the code of the filename of its path, and every entry of
`non_card_scripts` is keyed by the filename of its path, which has extension `.lua`. -/
def RegistryOK (ulongBits : Nat) (s : State) : Prop :=
  (∀ k p, (k, p) ∈ s.scripts →
    k ∉ [419, 420, 421, 422, 151000000] ∧ tryParseCode ulongBits (filename p) = some k) ∧
  (∀ n p, (n, p) ∈ s.non_card_scripts → n = filename p ∧ extension n = ".lua".toList)

/-- The script-source lookup of `name` finds `path`: through `scripts` when the name
classifies as a non-excluded card code, through `non_card_scripts` otherwise. -/
def ResolvesTo (ulongBits : Nat) (s : State) (name : Str) (path : Path) : Prop :=
  (∃ c, tryParseCode ulongBits name = some c ∧ mustNotParseAsCard c = false ∧
    find c s.scripts = some path) ∨
  ((∀ c, tryParseCode ulongBits name = some c → mustNotParseAsCard c = true) ∧
    find name s.non_card_scripts = some path)

/-- The canonical script name of a code: `c`, its decimal text, `.lua`. -/
def canonicalName (k : Nat) : Str := 'c' :: decimal k ++ ".lua".toList

/-- The status is kept from `s` to `t`: a failure stays a failure, and a status that is
success or failure stays one of the two. -/
def StatusKept (s t : State) : Prop :=
  (s.status_code = EXIT_FAILURE → t.status_code = EXIT_FAILURE) ∧
  ((s.status_code = EXIT_SUCCESS ∨ s.status_code = EXIT_FAILURE) →
    (t.status_code = EXIT_SUCCESS ∨ t.status_code = EXIT_FAILURE))

/-! ## Measure and invariants of the walk -/

/-- Nodes still ahead of an iterator in the directories below the innermost one. -/
def lowerRemaining : List Frame → Nat
  | [] => 0
  | f :: fs => sizeEntries f.rest + lowerRemaining fs

/-- Nodes still ahead of an iterator, the current entry included. -/
def remaining : List Frame → Nat
  | [] => 0
  | f :: fs => f.cur.2.size + sizeEntries f.rest + lowerRemaining fs

/-- Every open directory records as many directory names as there are directories open
below it. -/
def DirsOK : List Frame → Prop
  | [] => True
  | f :: fs => f.dir.length = fs.length ∧ DirsOK fs

/-- The directory reached from the root of `tree` through the directories named in `dir`
holds the entries `cs`. -/
inductive DirAt (tree : List (Str × Node)) : List Str → List (Str × Node) → Prop where
  | root : DirAt tree [] tree
  | sub (dir : List Str) (cs : List (Str × Node)) (d : Str) (sub : List (Str × Node)) :
      DirAt tree dir cs → (d, Node.dir sub) ∈ cs → DirAt tree (dir ++ [d]) sub

/-- A regular file called `name` lies in the directory reached through `parent`. -/
def FileAt (tree : List (Str × Node)) (parent : List Str) (name : Str) : Prop :=
  ∃ cs, DirAt tree parent cs ∧ (name, Node.file) ∈ cs

/-- The entries of an open directory are entries of the directory of `tree` that it
names. -/
def FrameOK (tree : List (Str × Node)) (f : Frame) : Prop :=
  ∃ cs, DirAt tree f.dir cs ∧ ∀ e ∈ f.cur :: f.rest, e ∈ cs

/-! ## Lemmas on strings and paths -/

theorem rfind_append_some (c : Char) (a b : Str) (i : Nat) (h : rfind c b = some i) :
    rfind c (a ++ b) = some (a.length + i) := by
  induction a with
  | nil => simpa using h
  | cons x xs ih =>
    show rfind c (x :: (xs ++ b)) = some ((x :: xs).length + i)
    rw [rfind, ih, List.length_cons]
    show some (xs.length + i + 1) = some (xs.length + 1 + i)
    congr 1
    omega

theorem rfind_append_none (c : Char) (a b : Str) (h : rfind c b = none) :
    rfind c (a ++ b) = rfind c a := by
  induction a with
  | nil => simpa [rfind] using h
  | cons x xs ih =>
    show rfind c (x :: (xs ++ b)) = rfind c (x :: xs)
    rw [rfind, ih, rfind]

theorem rfind_eq_none_iff (c : Char) (s : Str) : rfind c s = none ↔ c ∉ s := by
  induction s with
  | nil => simp [rfind]
  | cons x xs ih =>
    simp only [rfind, List.mem_cons, not_or]
    cases h : rfind c xs with
    | some i =>
      have : ¬ c ∉ xs := fun hc => by simp [ih.mpr hc] at h
      simp [this]
    | none =>
      have hc : c ∉ xs := ih.mp h
      by_cases hx : x = c
      · simp [hx]
      · simp [hx, hc, Ne.symm hx]

theorem rfind_drop (c : Char) (s : Str) (i : Nat) (h : rfind c s = some i) :
    rfind c (s.drop (i + 1)) = none := by
  induction s generalizing i with
  | nil => simp [rfind] at h
  | cons x xs ih =>
    simp only [rfind] at h
    cases hx : rfind c xs with
    | some j =>
      simp only [hx, Option.some.injEq] at h
      subst h
      simpa using ih j hx
    | none =>
      simp only [hx] at h
      split at h
      · simp only [Option.some.injEq] at h
        subst h
        simpa using hx
      · simp at h

/-- Taking the filename twice changes nothing. -/
theorem filename_filename (p : Path) : filename (filename p) = filename p := by
  have key : rfind '/' (filename p) = none := by
    unfold filename
    cases h : rfind '/' p with
    | none => simpa using h
    | some i => simpa using rfind_drop '/' p i h
  show (match rfind '/' (filename p) with
    | none => filename p
    | some i => (filename p).drop (i + 1)) = filename p
  rw [key]

theorem stem_filename (p : Path) : stem (filename p) = stem p := by
  simp [stem, filename_filename]

theorem extension_filename (p : Path) : extension (filename p) = extension p := by
  simp [extension, filename_filename]

theorem isCardScript_filename (p : Path) : isCardScript (filename p) = isCardScript p := by
  simp [isCardScript, stem_filename, extension_filename]

/-- The classification of a path only looks at its filename. -/
theorem tryParseCode_filename (w : Nat) (p : Path) :
    tryParseCode w (filename p) = tryParseCode w p := by
  simp [tryParseCode, isCardScript_filename, stem_filename]

/-- A code is returned only for the extension `.lua`. -/
theorem extension_of_tryParseCode (w : Nat) (p : Path) (c : Nat)
    (h : tryParseCode w p = some c) : extension p = ".lua".toList := by
  unfold tryParseCode at h
  by_cases hc : isCardScript p = true
  · simp only [isCardScript, Bool.and_eq_true, beq_iff_eq] at hc
    exact hc.2
  · simp [hc] at h

/-! ## Lemmas on the registry -/

theorem emplace_of_find_none {κ : Type} [DecidableEq κ] (k : κ) (v : Path)
    (m : List (κ × Path)) (h : find k m = none) : emplace k v m = m ++ [(k, v)] := by
  induction m with
  | nil => rfl
  | cons e m ih =>
    obtain ⟨k1, v1⟩ := e
    simp only [find] at h
    by_cases hk : k1 = k
    · simp [hk] at h
    · simp only [hk, if_false] at h
      simp [emplace, hk, ih h]

theorem emplace_of_find_some {κ : Type} [DecidableEq κ] (k : κ) (v p : Path)
    (m : List (κ × Path)) (h : find k m = some p) : emplace k v m = m := by
  induction m with
  | nil => simp [find] at h
  | cons e m ih =>
    obtain ⟨k1, v1⟩ := e
    simp only [find] at h
    by_cases hk : k1 = k
    · simp [emplace, hk]
    · simp only [hk, if_false] at h
      simp [emplace, hk, ih h]

theorem find_append {κ : Type} [DecidableEq κ] (k : κ) (m n : List (κ × Path)) :
    find k (m ++ n) = (find k m).orElse (fun _ => find k n) := by
  induction m with
  | nil => simp [find]
  | cons e m ih =>
    obtain ⟨k1, v1⟩ := e
    by_cases hk : k1 = k
    · simp [find, hk]
    · simp [find, hk, ih]

/-- After `emplace k v`, key `k` holds its old value if it had one and `v` otherwise, and
every other key is as before. -/
theorem find_emplace {κ : Type} [DecidableEq κ] (k j : κ) (v : Path) (m : List (κ × Path)) :
    find j (emplace k v m) =
      if j = k then some ((find k m).getD v) else find j m := by
  cases h : find k m with
  | some p =>
    rw [emplace_of_find_some k v p m h]
    by_cases hj : j = k
    · subst hj; simp [h]
    · simp [hj]
  | none =>
    rw [emplace_of_find_none k v m h, find_append]
    by_cases hj : j = k
    · subst hj; simp [h, find]
    · have : ¬ k = j := fun e => hj e.symm
      simp [hj, find, this]

/-! ## Lemmas on `stoul` and `tryParseCode` -/

theorem isspace_of_isdigit (c : Char) (h : isdigit c = true) : isspace c = false := by
  simp only [isdigit, Bool.and_eq_true, decide_eq_true_eq] at h
  simp only [isspace, Bool.or_eq_false_iff, beq_eq_false_iff_ne, ne_eq, Bool.and_eq_false_iff,
    decide_eq_false_iff_not]
  omega

theorem not_sign_of_isdigit (c : Char) (h : isdigit c = true) : c ≠ '-' ∧ c ≠ '+' := by
  constructor <;> (rintro rfl; revert h; decide)

/-- On a non-empty run of digits whose value fits, `stoul` returns that value. -/
theorem stoul_digits (w : Nat) (ds : Str) (hne : ds ≠ [])
    (hd : ∀ c ∈ ds, isdigit c = true) (hv : digitsValue ds ≤ 2 ^ w - 1) :
    stoul w ds = some (digitsValue ds) := by
  obtain ⟨d, t, rfl⟩ := List.exists_cons_of_ne_nil hne
  have hdig : isdigit d = true := hd d (List.mem_cons_self _ _)
  have hsp : isspace d = false := isspace_of_isdigit d hdig
  obtain ⟨hm, hp⟩ := not_sign_of_isdigit d hdig
  have htake : List.takeWhile isdigit (d :: t) = d :: t :=
    List.takeWhile_eq_self_iff.mpr hd
  have hlt : ¬ 2 ^ w - 1 < digitsValue (d :: t) := by omega
  simp [stoul, skipSign, List.dropWhile_cons, hsp, hm, hp, htake, hlt]

/-- Shape of the stem and extension of a name `c<digits>.lua`. -/
theorem card_name_parts (p : Path) (ds : Str)
    (hf : filename p = 'c' :: ds ++ ".lua".toList) :
    stem p = 'c' :: ds ∧ extension p = ".lua".toList := by
  have hpos : rfind '.' ('c' :: ds ++ ".lua".toList) = some (ds.length + 1) := by
    have := rfind_append_some '.' ('c' :: ds) ".lua".toList 0 (by decide)
    simpa using this
  have hext : extensionPos (filename p) = some (ds.length + 1) := by
    rw [hf]
    unfold extensionPos
    rw [hpos]
    simp
  have hlen : ('c' :: ds ++ ".lua".toList).take (ds.length + 1) = 'c' :: ds := by
    simp
  have hdrop : ('c' :: ds ++ ".lua".toList).drop (ds.length + 1) = ".lua".toList := by
    simp
  constructor
  · simp only [stem, hext]
    rw [hf, hlen]
  · simp only [extension, hext]
    rw [hf, hdrop]

/-- A name `c<digits>.lua` whose digits fit 32 bits parses to the value of its digits. -/
theorem tryParseCode_card_name (w : Nat) (p : Path) (ds : Str) (hw : 32 ≤ w)
    (hne : ds ≠ []) (hd : ∀ c ∈ ds, isdigit c = true) (hv : digitsValue ds < 2 ^ 32)
    (hf : filename p = 'c' :: ds ++ ".lua".toList) :
    tryParseCode w p = some (digitsValue ds) := by
  obtain ⟨hs, he⟩ := card_name_parts p ds hf
  have hpow : 2 ^ 32 ≤ 2 ^ w := Nat.pow_le_pow_right (by norm_num) hw
  have hfit : digitsValue ds ≤ 2 ^ w - 1 := by omega
  have hst : stoul w ds = some (digitsValue ds) := stoul_digits w ds hne hd hfit
  have hcard : isCardScript p = true := by
    simp [isCardScript, hs, he]
  simp only [tryParseCode, hcard, hs, List.drop_succ_cons, List.drop_zero, hst,
    Bool.not_true, Bool.false_eq_true, if_false, Nat.mod_eq_of_lt hv]

/-- When no digit follows the optional white space and sign, `stoul` throws. -/
theorem stoul_no_digit (w : Nat) (r : Str)
    (h : ∀ d, (skipSign (r.dropWhile isspace)).head? = some d → isdigit d = false) :
    stoul w r = none := by
  have hnil : List.takeWhile isdigit (skipSign (r.dropWhile isspace)) = [] := by
    cases hl : skipSign (r.dropWhile isspace) with
    | nil => rfl
    | cons d t =>
      have := h d (by rw [hl]; rfl)
      simp [List.takeWhile_cons, this]
  unfold stoul
  simp only [hnil, if_true]

/-- Unfolding of `parseScript` in terms of the classification of the whole path. -/
theorem parseScript_eq (w : Nat) (path : Path) (s : State) :
    parseScript w path s =
      match tryParseCode w path with
      | some code =>
        if mustNotParseAsCard code = false then
          { s with scripts := emplace code path s.scripts }
        else { s with non_card_scripts := emplace (filename path) path s.non_card_scripts }
      | none =>
        if extension path = ".lua".toList then
          { s with non_card_scripts := emplace (filename path) path s.non_card_scripts }
        else s := by
  unfold parseScript
  rw [tryParseCode_filename, extension_filename]
  cases h : tryParseCode w path with
  | none => simp
  | some code =>
    have he := extension_of_tryParseCode w path code h
    cases hm : mustNotParseAsCard code <;> simp [he]

/-! ## C1: names of the form c<digits>.lua -/

/-- C1: for a file named c<digits>.lua whose digits denote a value n below 2^32,
tryParseCode returns n; parseScript on a registry where the target key is absent appends
(n, path) to scripts and leaves non_card_scripts alone when n is none of 419, 420, 421, 422,
151000000, and appends (filename, path) to non_card_scripts and leaves scripts alone when
n is one of them.  Feeding c4.lua, c419.lua, utility.lua, constant.lua to the empty
registry gives scripts = {4} and non_card_scripts = {c419.lua, utility.lua, constant.lua}. -/
theorem C1_card_names (w : Nat) (path : Path) (ds : Str) (s : State)
    (hw : 32 ≤ w) (hne : ds ≠ []) (hd : ∀ c ∈ ds, isdigit c = true)
    (hv : digitsValue ds < 2 ^ 32)
    (hf : filename path = 'c' :: ds ++ ".lua".toList) :
    tryParseCode w (filename path) = some (digitsValue ds) ∧
    (digitsValue ds ∉ [419, 420, 421, 422, 151000000] →
      find (digitsValue ds) s.scripts = none →
      parseScript w path s = { s with scripts := s.scripts ++ [(digitsValue ds, path)] }) ∧
    (digitsValue ds ∈ [419, 420, 421, 422, 151000000] →
      find (filename path) s.non_card_scripts = none →
      parseScript w path s =
        { s with non_card_scripts := s.non_card_scripts ++ [(filename path, path)] }) ∧
    parseScripts w ["r/c4.lua".toList, "r/c419.lua".toList, "r/utility.lua".toList,
        "r/constant.lua".toList] State.init =
      { State.init with
        scripts := [(4, "r/c4.lua".toList)]
        non_card_scripts := [("c419.lua".toList, "r/c419.lua".toList),
          ("utility.lua".toList, "r/utility.lua".toList),
          ("constant.lua".toList, "r/constant.lua".toList)] } := by
  have hp : tryParseCode w path = some (digitsValue ds) :=
    tryParseCode_card_name w path ds hw hne hd hv hf
  refine ⟨by rw [tryParseCode_filename]; exact hp, ?_, ?_, ?_⟩
  · intro hn hfind
    have hm : mustNotParseAsCard (digitsValue ds) = false := by
      simp only [List.mem_cons, List.mem_singleton, List.not_mem_nil, or_false, not_or] at hn
      simp only [mustNotParseAsCard, Bool.or_eq_false_iff, Bool.and_eq_false_iff,
        decide_eq_false_iff_not, beq_eq_false_iff_ne]
      omega
    rw [parseScript_eq, hp]
    simp only [hm, if_true]
    rw [emplace_of_find_none _ _ _ hfind]
  · intro hn hfind
    have hm : mustNotParseAsCard (digitsValue ds) = true := by
      simp only [List.mem_cons, List.mem_singleton, List.not_mem_nil, or_false] at hn
      rcases hn with h | h | h | h | h <;> rw [h] <;> decide
    rw [parseScript_eq, hp]
    simp only [hm, Bool.true_eq_false, if_false]
    rw [emplace_of_find_none _ _ _ hfind]
  · have h4 : tryParseCode w "r/c4.lua".toList = some 4 :=
      tryParseCode_card_name w _ "4".toList hw (by decide) (by decide) (by decide) (by decide)
    have h419 : tryParseCode w "r/c419.lua".toList = some 419 :=
      tryParseCode_card_name w _ "419".toList hw (by decide) (by decide) (by decide)
        (by decide)
    have hu : tryParseCode w "r/utility.lua".toList = none := by
      have h1 : isCardScript "r/utility.lua".toList = false := by decide
      unfold tryParseCode
      rw [h1]
      rfl
    have hc : tryParseCode w "r/constant.lua".toList = none := by
      have h1 : stem "r/constant.lua".toList = "constant".toList := by decide
      have h2 : stoul w "onstant".toList = none := stoul_no_digit w _ (by decide)
      unfold tryParseCode
      rw [h1, show List.drop 1 "constant".toList = "onstant".toList from by decide, h2]
      rfl
    have e1 : extension "r/utility.lua".toList = ".lua".toList := by decide
    have e2 : extension "r/constant.lua".toList = ".lua".toList := by decide
    simp only [parseScripts, List.foldl, parseScript_eq, h4, h419, hu, hc, e1, e2, if_true]
    decide

/-- Witness of C1 at r/c7.lua on the empty registry. -/
theorem C1_card_names_witness :
    tryParseCode 64 (filename "r/c7.lua".toList) = some 7 ∧
    parseScript 64 "r/c7.lua".toList State.init =
      { State.init with scripts := [(7, "r/c7.lua".toList)] } :=
  have h := C1_card_names 64 "r/c7.lua".toList "7".toList State.init (by decide) (by decide)
    (by decide) (by decide) (by decide)
  ⟨h.1, h.2.1 (by decide) (by decide)⟩

/-! ## C2: names that are not card shaped -/

/-- C3: when the requested name is not resolved (it classifies as a non-excluded card code
absent from scripts, or it does not and the name is absent from non_card_scripts),
scriptReader returns 0 and makes no call to the engine, whatever the files and the engine
are; the globals are left as they were when the name classifies as card code 0, and
otherwise only status_code changes, to failure.  Starting from success, status_code is
unchanged exactly when the name classifies as card code 0. -/
theorem C3_scriptReader_unresolved (w : Nat) (files : Path → FileRead)
    (OCG_LoadScript : Str → Nat → Str → State → Int × State) (name : Str) (s : State)
    (h : (∃ c, tryParseCode w name = some c ∧ mustNotParseAsCard c = false ∧
            find c s.scripts = none) ∨
         ((∀ c, tryParseCode w name = some c → mustNotParseAsCard c = true) ∧
            find name s.non_card_scripts = none)) :
    (scriptReader w files OCG_LoadScript name s).1 = 0 ∧
    (scriptReader w files OCG_LoadScript name s).2.calls = s.calls ∧
    (tryParseCode w name = some 0 → (scriptReader w files OCG_LoadScript name s).2 = s) ∧
    (tryParseCode w name ≠ some 0 →
      (scriptReader w files OCG_LoadScript name s).2 = { s with status_code := EXIT_FAILURE }) ∧
    (s.status_code = EXIT_SUCCESS →
      ((scriptReader w files OCG_LoadScript name s).2.status_code = s.status_code ↔
        tryParseCode w name = some 0)) := by
  have key : scriptReader w files OCG_LoadScript name s =
      (0, if tryParseCode w name = some 0 then s
          else { s with status_code := EXIT_FAILURE }) := by
    rcases h with ⟨c, hc, hm, hf⟩ | ⟨hm, hf⟩
    · unfold scriptReader
      simp only [hc, hm, hf, Bool.not_false, if_true, Option.some.injEq]
      by_cases h0 : c = 0 <;> simp [h0]
    · unfold scriptReader
      cases hc : tryParseCode w name with
      | none => simp [hf]
      | some c =>
        have hne : c ≠ 0 := by
          intro e
          have := hm c hc
          rw [e] at this
          revert this
          decide
        simp [hm c hc, hf, hne]
  rw [key]
  refine ⟨rfl, ?_, ?_, ?_, ?_⟩
  · split <;> rfl
  · intro h0
    simp [h0]
  · intro h0
    simp [h0]
  · intro hs
    by_cases h0 : tryParseCode w name = some 0
    · simp [h0]
    · simp [h0, hs, EXIT_SUCCESS, EXIT_FAILURE]

/-- Witness of C3: on the empty registry c0.lua returns 0 and keeps status_code at
success, c7.lua returns 0 and turns status_code to failure. -/
theorem C3_scriptReader_unresolved_witness :
    (scriptReader 64 (fun _ => FileRead.cannotOpen) (fun _ _ _ st => (1, st)) "c0.lua".toList State.init).1 = 0 ∧
    (scriptReader 64 (fun _ => FileRead.cannotOpen) (fun _ _ _ st => (1, st)) "c0.lua".toList State.init).2
      = State.init ∧
    (scriptReader 64 (fun _ => FileRead.cannotOpen) (fun _ _ _ st => (1, st)) "c7.lua".toList State.init).1 = 0 ∧
    (scriptReader 64 (fun _ => FileRead.cannotOpen) (fun _ _ _ st => (1, st)) "c7.lua".toList State.init).2
      = { State.init with status_code := EXIT_FAILURE } :=
  have h0 := C3_scriptReader_unresolved 64 (fun _ => FileRead.cannotOpen) (fun _ _ _ st => (1, st))
    "c0.lua".toList State.init (Or.inl ⟨0, by decide, by decide, by decide⟩)
  have h7 := C3_scriptReader_unresolved 64 (fun _ => FileRead.cannotOpen) (fun _ _ _ st => (1, st))
    "c7.lua".toList State.init (Or.inl ⟨7, by decide, by decide, by decide⟩)
  ⟨h0.1, h0.2.2.1 (by decide), h7.1, h7.2.2.2.1 (by decide)⟩

/-! ## C4 and C5: insert-if-absent registration -/

/-- The three ways `parseScript` treats a path, whatever the registry: by code, by name,
or not at all. -/
theorem parseScript_cases (w : Nat) (path : Path) :
    (∃ c, codeKey w path = some c ∧ nameKey w path = none ∧
      ∀ s, parseScript w path s = { s with scripts := emplace c path s.scripts }) ∨
    (codeKey w path = none ∧ nameKey w path = some (filename path) ∧
      ∀ s, parseScript w path s =
        { s with non_card_scripts := emplace (filename path) path s.non_card_scripts }) ∨
    (codeKey w path = none ∧ nameKey w path = none ∧ ∀ s, parseScript w path s = s) := by
  cases hc : tryParseCode w path with
  | some c =>
    cases hm : mustNotParseAsCard c with
    | false =>
      refine Or.inl ⟨c, ?_, ?_, ?_⟩
      · simp [codeKey, parseScript_eq, hc, hm, State.init, emplace]
      · simp [nameKey, parseScript_eq, hc, hm, State.init]
      · intro s
        simp [parseScript_eq, hc, hm]
    | true =>
      refine Or.inr (Or.inl ⟨?_, ?_, ?_⟩)
      · simp [codeKey, parseScript_eq, hc, hm, State.init]
      · simp [nameKey, parseScript_eq, hc, hm, State.init, emplace]
      · intro s
        simp [parseScript_eq, hc, hm]
  | none =>
    by_cases he : extension path = ".lua".toList
    · refine Or.inr (Or.inl ⟨?_, ?_, ?_⟩)
      · simp [codeKey, parseScript_eq, hc, he, State.init]
      · simp [nameKey, parseScript_eq, hc, he, State.init, emplace]
      · intro s
        simp [parseScript_eq, hc, he]
    · have hp : ∀ s, parseScript w path s = s := by
        intro s
        rw [parseScript_eq, hc]
        simp only [he, if_false]
      refine Or.inr (Or.inr ⟨?_, ?_, hp⟩)
      · simp [codeKey, hp, State.init]
      · simp [nameKey, hp, State.init]

/-- The key read off the empty registry is the one the source computes: a code is the
non-excluded result of `tryParseCode`, a name is the full filename of a `.lua` file. -/
theorem codeKey_nameKey_spec (w : Nat) (path : Path) :
    (∀ k, codeKey w path = some k ↔
      (tryParseCode w path = some k ∧ mustNotParseAsCard k = false)) ∧
    (∀ n, nameKey w path = some n →
      n = filename path ∧ extension path = ".lua".toList) := by
  cases hc : tryParseCode w path with
  | some c =>
    have he := extension_of_tryParseCode w path c hc
    cases hm : mustNotParseAsCard c with
    | false =>
      have h1 : codeKey w path = some c := by
        simp [codeKey, parseScript_eq, hc, hm, State.init, emplace]
      have h2 : nameKey w path = none := by
        simp [nameKey, parseScript_eq, hc, hm, State.init]
      rw [h1, h2]
      refine ⟨fun k => ?_, fun n hn => by simp at hn⟩
      constructor
      · intro h
        have hk : c = k := Option.some.inj h
        rw [← hk]
        exact ⟨rfl, hm⟩
      · rintro ⟨h, _⟩
        exact h
    | true =>
      have h1 : codeKey w path = none := by
        simp [codeKey, parseScript_eq, hc, hm, State.init]
      have h2 : nameKey w path = some (filename path) := by
        simp [nameKey, parseScript_eq, hc, hm, State.init, emplace]
      rw [h1, h2]
      refine ⟨fun k => ?_, fun n hn => ⟨(Option.some.inj hn).symm, he⟩⟩
      constructor
      · intro h
        simp at h
      · rintro ⟨h, hk⟩
        have hck : c = k := Option.some.inj h
        rw [← hck, hm] at hk
        simp at hk
  | none =>
    by_cases he : extension path = ".lua".toList
    · have h1 : codeKey w path = none := by
        simp [codeKey, parseScript_eq, hc, he, State.init]
      have h2 : nameKey w path = some (filename path) := by
        simp [nameKey, parseScript_eq, hc, he, State.init, emplace]
      rw [h1, h2]
      exact ⟨fun k => by simp, fun n hn => ⟨(Option.some.inj hn).symm, he⟩⟩
    · have hp : ∀ s, parseScript w path s = s := by
        intro s
        rw [parseScript_eq, hc]
        simp only [he, if_false]
      have h1 : codeKey w path = none := by simp [codeKey, hp, State.init]
      have h2 : nameKey w path = none := by simp [nameKey, hp, State.init]
      rw [h1, h2]
      exact ⟨fun k => by simp, fun n hn => by simp at hn⟩

theorem orElse_some_getD (o : Option Path) (v : Path) :
    o.orElse (fun _ => some v) = some (o.getD v) := by
  cases o <;> rfl

/-- Lookup of a code after one `parseScript`. -/
theorem find_scripts_parseScript (w : Nat) (path : Path) (s : State) (k : Nat) :
    find k (parseScript w path s).scripts =
      (find k s.scripts).orElse
        (fun _ => if codeKey w path = some k then some path else none) := by
  rcases parseScript_cases w path with ⟨c, h1, _, h3⟩ | ⟨h1, _, h3⟩ | ⟨h1, _, h3⟩
  · rw [h3, h1]
    simp only [find_emplace, Option.some.injEq]
    by_cases hk : k = c
    · subst hk
      simp [orElse_some_getD]
    · have : ¬ c = k := fun e => hk e.symm
      simp [hk, this]
  · rw [h3, h1]
    simp
  · rw [h3, h1]
    simp

/-- Lookup of a name after one `parseScript`. -/
theorem find_names_parseScript (w : Nat) (path : Path) (s : State) (n : Str) :
    find n (parseScript w path s).non_card_scripts =
      (find n s.non_card_scripts).orElse
        (fun _ => if nameKey w path = some n then some path else none) := by
  rcases parseScript_cases w path with ⟨c, _, h2, h3⟩ | ⟨_, h2, h3⟩ | ⟨_, h2, h3⟩
  · rw [h3, h2]
    simp
  · rw [h3, h2]
    simp only [find_emplace, Option.some.injEq]
    by_cases hk : n = filename path
    · subst hk
      simp [orElse_some_getD]
    · have : ¬ filename path = n := fun e => hk e.symm
      simp [hk, this]
  · rw [h3, h2]
    simp

theorem orElse_orElse_find (o : Option Path) (b : Bool) (f : Path) (rest : Option Path) :
    (o.orElse (fun _ => if b = true then some f else none)).orElse (fun _ => rest) =
      o.orElse (fun _ => if b = true then some f else rest) := by
  cases o <;> cases b <;> rfl

/-- Lookup of a code after a sequence of files: the old entry if there is one, otherwise
the first file of the sequence routed to that code. -/
theorem find_scripts_parseScripts (w : Nat) (files : List Path) (s : State) (k : Nat) :
    find k (parseScripts w files s).scripts =
      (find k s.scripts).orElse
        (fun _ => files.find? (fun f => decide (codeKey w f = some k))) := by
  induction files generalizing s with
  | nil => cases h : find k s.scripts <;> simp [parseScripts, h]
  | cons f fs ih =>
    have hstep : parseScripts w (f :: fs) s = parseScripts w fs (parseScript w f s) := rfl
    rw [hstep, ih, find_scripts_parseScript]
    cases h : find k s.scripts with
    | some p => rfl
    | none =>
      by_cases hk : codeKey w f = some k
      · simp [hk, List.find?_cons]
      · simp [hk, List.find?_cons]

/-- Lookup of a name after a sequence of files. -/
theorem find_names_parseScripts (w : Nat) (files : List Path) (s : State) (n : Str) :
    find n (parseScripts w files s).non_card_scripts =
      (find n s.non_card_scripts).orElse
        (fun _ => files.find? (fun f => decide (nameKey w f = some n))) := by
  induction files generalizing s with
  | nil => cases h : find n s.non_card_scripts <;> simp [parseScripts, h]
  | cons f fs ih =>
    have hstep : parseScripts w (f :: fs) s = parseScripts w fs (parseScript w f s) := rfl
    rw [hstep, ih, find_names_parseScript]
    cases h : find n s.non_card_scripts with
    | some p => rfl
    | none =>
      by_cases hk : nameKey w f = some n
      · simp [hk, List.find?_cons]
      · simp [hk, List.find?_cons]

/-- A file whose key is present is a no-op for `parseScript`. -/
theorem parseScript_of_present (w : Nat) (path : Path) (s : State)
    (hc : ∀ k, codeKey w path = some k → find k s.scripts ≠ none)
    (hn : ∀ n, nameKey w path = some n → find n s.non_card_scripts ≠ none) :
    parseScript w path s = s := by
  rcases parseScript_cases w path with ⟨c, h1, _, h3⟩ | ⟨_, h2, h3⟩ | ⟨_, _, h3⟩
  · rw [h3]
    cases hf : find c s.scripts with
    | none => exact absurd hf (hc c h1)
    | some p => rw [emplace_of_find_some c path p _ hf]
  · rw [h3]
    cases hf : find (filename path) s.non_card_scripts with
    | none => exact absurd hf (hn _ h2)
    | some p => rw [emplace_of_find_some _ path p _ hf]
  · exact h3 s

/-- C4: first registration wins.  The key a file is routed to is its non-excluded code in
scripts, or its full filename in non_card_scripts.  A file routed to a key that is
already present leaves the whole registry as it is; and after feeding any sequence of files to the empty
registry, a code (a name) maps to the path of the first file of the sequence routed to it,
and is absent when no file is routed to it. -/
theorem C4_first_registration_wins (w : Nat) :
    (∀ (path : Path) (k : Nat), codeKey w path = some k ↔
      (tryParseCode w path = some k ∧ mustNotParseAsCard k = false)) ∧
    (∀ (path : Path) (n : Str), nameKey w path = some n →
      n = filename path ∧ extension path = ".lua".toList) ∧
    (∀ (path : Path) (s : State),
      (∀ k, codeKey w path = some k → find k s.scripts ≠ none) →
      (∀ n, nameKey w path = some n → find n s.non_card_scripts ≠ none) →
      parseScript w path s = s) ∧
    (∀ (files : List Path) (k : Nat),
      find k (parseScripts w files State.init).scripts =
        files.find? (fun f => decide (codeKey w f = some k))) ∧
    (∀ (files : List Path) (n : Str),
      find n (parseScripts w files State.init).non_card_scripts =
        files.find? (fun f => decide (nameKey w f = some n))) := by
  refine ⟨fun path => (codeKey_nameKey_spec w path).1,
    fun path => (codeKey_nameKey_spec w path).2,
    fun path s hc hn => parseScript_of_present w path s hc hn, ?_, ?_⟩
  · intro files k
    rw [find_scripts_parseScripts]
    rfl
  · intro files n
    rw [find_names_parseScripts]
    rfl

/-- Witness of C4: r/c4.lua is a no-op once code 4 is registered, and of two files named
c4.lua the first one is the one found. -/
theorem C4_first_registration_wins_witness :
    parseScript 64 "r/c4.lua".toList (parseScript 64 "q/c4.lua".toList State.init) =
      parseScript 64 "q/c4.lua".toList State.init ∧
    find 4 (parseScripts 64 ["q/c4.lua".toList, "r/c4.lua".toList] State.init).scripts =
      some "q/c4.lua".toList :=
  ⟨(C4_first_registration_wins 64).2.2.1 "r/c4.lua".toList
      (parseScript 64 "q/c4.lua".toList State.init) (by decide) (by decide),
    ((C4_first_registration_wins 64).2.2.2.1 ["q/c4.lua".toList, "r/c4.lua".toList] 4).trans
      (by decide)⟩

/-- Feeding files whose keys are all present changes nothing. -/
theorem parseScripts_of_present (w : Nat) (files : List Path) (s : State)
    (h : ∀ f ∈ files, parseScript w f s = s) : parseScripts w files s = s := by
  induction files with
  | nil => rfl
  | cons f fs ih =>
    have hstep : parseScripts w (f :: fs) s = parseScripts w fs (parseScript w f s) := rfl
    rw [hstep, h f (List.mem_cons_self _ _)]
    exact ih (fun g hg => h g (List.mem_cons_of_mem _ hg))

theorem parseScripts_append (w : Nat) (a b : List Path) (s : State) :
    parseScripts w (a ++ b) s = parseScripts w b (parseScripts w a s) := by
  simp [parseScripts, List.foldl_append]

/-! ## The directory walk: termination and what reaches `parseScript` -/

theorem Node.size_pos (n : Node) : 0 < n.size := by
  cases n <;> simp [Node.size]

theorem remaining_advance_le (fs : List Frame) : remaining (advance fs) ≤ lowerRemaining fs := by
  induction fs with
  | nil => simp [advance, remaining, lowerRemaining]
  | cons g gs ih =>
    cases hr : g.rest with
    | nil =>
      simp only [advance, hr, lowerRemaining, sizeEntries]
      omega
    | cons e es =>
      obtain ⟨n, nd⟩ := e
      simp [advance, hr, lowerRemaining, remaining, sizeEntries]

theorem lowerRemaining_lt_remaining (f : Frame) (fs : List Frame) :
    lowerRemaining (f :: fs) < remaining (f :: fs) := by
  have := Node.size_pos f.cur.2
  simp only [lowerRemaining, remaining]
  omega

theorem lowerRemaining_tail_lt (f : Frame) (fs : List Frame) :
    lowerRemaining fs < remaining (f :: fs) := by
  have := lowerRemaining_lt_remaining f fs
  simp only [lowerRemaining] at this
  omega

/-- An increment that succeeds leaves fewer nodes ahead. -/
theorem remaining_increment (it it1 : Iter) (h : it.increment = some it1) :
    remaining it1.stack < remaining it.stack := by
  obtain ⟨stack, pending⟩ := it
  cases stack with
  | nil => simp [Iter.increment] at h
  | cons f fs =>
    have hadv : remaining (advance (f :: fs)) < remaining (f :: fs) :=
      lt_of_le_of_lt (remaining_advance_le (f :: fs)) (lowerRemaining_lt_remaining f fs)
    obtain ⟨fdir, ⟨name, node⟩, frest⟩ := f
    unfold Iter.increment at h
    cases pending with
    | false =>
      simp only [Option.some.injEq] at h
      rw [← h]
      exact hadv
    | true =>
      cases node with
      | file =>
        simp only [Option.some.injEq] at h
        rw [← h]
        exact hadv
      | other =>
        simp only [Option.some.injEq] at h
        rw [← h]
        exact hadv
      | dir children =>
        cases children with
        | nil =>
          simp only [Option.some.injEq] at h
          rw [← h]
          exact hadv
        | cons c cs =>
          simp only [Option.some.injEq] at h
          rw [← h]
          obtain ⟨cn, cnode⟩ := c
          simp only [remaining, lowerRemaining, Node.size, sizeEntries]
          omega

theorem dirsOK_advance (fs : List Frame) (h : DirsOK fs) : DirsOK (advance fs) := by
  induction fs with
  | nil => exact h
  | cons g gs ih =>
    cases hr : g.rest with
    | nil =>
      simp only [advance, hr]
      exact ih h.2
    | cons e es =>
      simp only [advance, hr]
      exact ⟨h.1, h.2⟩

theorem dirsOK_increment (it it1 : Iter) (hok : DirsOK it.stack)
    (h : it.increment = some it1) : DirsOK it1.stack := by
  obtain ⟨stack, pending⟩ := it
  cases stack with
  | nil => simp [Iter.increment] at h
  | cons f fs =>
    have hadv : DirsOK (advance (f :: fs)) := dirsOK_advance _ hok
    obtain ⟨fdir, ⟨name, node⟩, frest⟩ := f
    unfold Iter.increment at h
    cases pending with
    | false =>
      simp only [Option.some.injEq] at h
      rw [← h]
      exact hadv
    | true =>
      cases node with
      | file =>
        simp only [Option.some.injEq] at h
        rw [← h]
        exact hadv
      | other =>
        simp only [Option.some.injEq] at h
        rw [← h]
        exact hadv
      | dir children =>
        cases children with
        | nil =>
          simp only [Option.some.injEq] at h
          rw [← h]
          exact hadv
        | cons c cs =>
          simp only [Option.some.injEq] at h
          rw [← h]
          refine ⟨?_, hok⟩
          have := hok.1
          simp only [List.length_append, List.length_cons, List.length_nil] at this ⊢
          omega

theorem framesOK_advance (tree : List (Str × Node)) (fs : List Frame)
    (h : ∀ g ∈ fs, FrameOK tree g) : ∀ g ∈ advance fs, FrameOK tree g := by
  induction fs with
  | nil => exact h
  | cons g gs ih =>
    have hgs : ∀ x ∈ gs, FrameOK tree x := fun x hx => h x (List.mem_cons_of_mem _ hx)
    cases hr : g.rest with
    | nil =>
      simp only [advance, hr]
      exact ih hgs
    | cons e es =>
      simp only [advance, hr]
      intro x hx
      rcases List.mem_cons.mp hx with rfl | hx
      · obtain ⟨cs, hdir, hmem⟩ := h g (List.mem_cons_self _ _)
        refine ⟨cs, hdir, ?_⟩
        intro y hy
        apply hmem
        rw [hr]
        exact List.mem_cons_of_mem _ hy
      · exact hgs x hx

theorem framesOK_increment (tree : List (Str × Node)) (it it1 : Iter)
    (hok : ∀ g ∈ it.stack, FrameOK tree g) (h : it.increment = some it1) :
    ∀ g ∈ it1.stack, FrameOK tree g := by
  obtain ⟨stack, pending⟩ := it
  cases stack with
  | nil => simp [Iter.increment] at h
  | cons f fs =>
    have hadv : ∀ g ∈ advance (f :: fs), FrameOK tree g := framesOK_advance tree _ hok
    have hf : FrameOK tree f := hok f (List.mem_cons_self _ _)
    obtain ⟨fdir, ⟨name, node⟩, frest⟩ := f
    unfold Iter.increment at h
    cases pending with
    | false =>
      simp only [Option.some.injEq] at h
      rw [← h]
      exact hadv
    | true =>
      cases node with
      | file =>
        simp only [Option.some.injEq] at h
        rw [← h]
        exact hadv
      | other =>
        simp only [Option.some.injEq] at h
        rw [← h]
        exact hadv
      | dir children =>
        cases children with
        | nil =>
          simp only [Option.some.injEq] at h
          rw [← h]
          exact hadv
        | cons c cs =>
          simp only [Option.some.injEq] at h
          rw [← h]
          intro g hg
          rcases List.mem_cons.mp hg with rfl | hg
          · obtain ⟨ds, hdir, hmem⟩ := hf
            exact ⟨c :: cs, DirAt.sub fdir ds name (c :: cs) hdir
              (hmem _ (List.mem_cons_self _ _)), fun e he => he⟩
          · exact hok g hg

/-- One round of the loop: the next iterator, if there is one, keeps the invariant and has
fewer nodes ahead; and either nothing was parsed, or the current entry is a regular file
at depth at most 1 and it alone was parsed. -/
theorem loopBody_spec (w : Nat) (root : Path) (tree : List (Str × Node)) (f : Frame)
    (fs : List Frame) (it : Iter) (s : State) (ps : List Entry) (hst : it.stack = f :: fs)
    (hok : DirsOK it.stack) (hfr : ∀ g ∈ it.stack, FrameOK tree g) :
    (∀ it1, (loopBody w root f it s ps).1 = some it1 →
      DirsOK it1.stack ∧ (∀ g ∈ it1.stack, FrameOK tree g) ∧
        remaining it1.stack < remaining it.stack) ∧
    (((loopBody w root f it s ps).2.1 = s ∧ (loopBody w root f it s ps).2.2 = ps) ∨
      (∃ name, FileAt tree f.dir name ∧ f.dir.length ≤ 1 ∧
        (loopBody w root f it s ps).2.1 = parseScript w (entryPath root f.dir name) s ∧
        (loopBody w root f it s ps).2.2 = ps ++ [⟨f.dir, name⟩])) := by
  have hinc : ∀ (p : Bool) (it1 : Iter), Iter.increment ⟨it.stack, p⟩ = some it1 →
      DirsOK it1.stack ∧ (∀ g ∈ it1.stack, FrameOK tree g) ∧
        remaining it1.stack < remaining it.stack := fun p it1 h =>
    ⟨dirsOK_increment ⟨it.stack, p⟩ it1 hok h, framesOK_increment tree ⟨it.stack, p⟩ it1 hfr h,
      remaining_increment ⟨it.stack, p⟩ it1 h⟩
  generalize hr : loopBody w root f it s ps = r
  unfold loopBody at hr
  by_cases hd : it.depth > 1
  · rw [if_pos hd] at hr
    subst hr
    refine ⟨?_, Or.inl ⟨rfl, rfl⟩⟩
    intro it1 h1
    have hpop : it.pop.stack = advance fs := by simp [Iter.pop, hst]
    have hok1 : DirsOK it.pop.stack := by
      rw [hpop]
      rw [hst] at hok
      exact dirsOK_advance fs hok.2
    have hfr1 : ∀ g ∈ it.pop.stack, FrameOK tree g := by
      rw [hpop]
      rw [hst] at hfr
      exact framesOK_advance tree fs (fun g hg => hfr g (List.mem_cons_of_mem _ hg))
    refine ⟨dirsOK_increment it.pop it1 hok1 h1, framesOK_increment tree it.pop it1 hfr1 h1, ?_⟩
    have h2 := remaining_increment it.pop it1 h1
    have h3 : remaining it.pop.stack ≤ lowerRemaining fs := by
      rw [hpop]
      exact remaining_advance_le fs
    have h4 := lowerRemaining_tail_lt f fs
    rw [hst]
    omega
  · rw [if_neg hd] at hr
    have hlen : f.dir.length ≤ 1 := by
      rw [hst] at hok
      have h1 := hok.1
      simp only [Iter.depth, hst, List.length_cons] at hd
      omega
    have hf : FrameOK tree f := hfr f (by rw [hst]; exact List.mem_cons_self _ _)
    obtain ⟨fdir, ⟨name, node⟩, frest⟩ := f
    cases node with
    | file =>
      subst hr
      obtain ⟨cs, hdir, hmem⟩ := hf
      exact ⟨fun it1 h1 => hinc it.pending it1 h1,
        Or.inr ⟨name, ⟨cs, hdir, hmem _ (List.mem_cons_self _ _)⟩, hlen, rfl, rfl⟩⟩
    | other =>
      subst hr
      exact ⟨fun it1 h1 => hinc it.pending it1 h1, Or.inl ⟨rfl, rfl⟩⟩
    | dir children =>
      simp only at hr
      by_cases hdot : ((filename (entryPath root fdir name)).headD (Char.ofNat 0) == '.') = true
      · rw [if_pos hdot] at hr
        subst hr
        exact ⟨fun it1 h1 => hinc false it1 h1, Or.inl ⟨rfl, rfl⟩⟩
      · rw [if_neg hdot] at hr
        subst hr
        exact ⟨fun it1 h1 => hinc it.pending it1 h1, Or.inl ⟨rfl, rfl⟩⟩

/-- The walk, for any budget: what it adds to the parsed entries lies at depth at most 1,
the globals are those obtained by feeding exactly these entries to `parseScript`, and a
budget of at least the number of nodes ahead is never used up. -/
theorem walkLoop_spec (w : Nat) (root : Path) (tree : List (Str × Node)) (fuel : Nat)
    (it : Iter) (s : State) (ps : List Entry) (hok : DirsOK it.stack)
    (hfr : ∀ g ∈ it.stack, FrameOK tree g) :
    ∃ new : List Entry,
      (walkLoop w root fuel it s ps).parsed = ps ++ new ∧
      (∀ e ∈ new, e.parent.length ≤ 1 ∧ FileAt tree e.parent e.name) ∧
      (walkLoop w root fuel it s ps).state =
        parseScripts w (new.map (fun e => entryPath root e.parent e.name)) s ∧
      (remaining it.stack ≤ fuel →
        (walkLoop w root fuel it s ps).outcome ≠ Outcome.outOfFuel) := by
  induction fuel generalizing it s ps with
  | zero =>
    cases hst : it.stack with
    | nil =>
      refine ⟨[], ?_, ?_, ?_, ?_⟩ <;> simp [walkLoop, hst, parseScripts]
    | cons f fs =>
      refine ⟨[], ?_, ?_, ?_, ?_⟩
      · simp [walkLoop, hst]
      · simp
      · simp [walkLoop, hst, parseScripts]
      · intro hle
        have := lowerRemaining_tail_lt f fs
        omega
  | succ fuel ih =>
    cases hst : it.stack with
    | nil =>
      refine ⟨[], ?_, ?_, ?_, ?_⟩ <;> simp [walkLoop, hst, parseScripts]
    | cons f fs =>
      obtain ⟨hnext, hparsed⟩ := loopBody_spec w root tree f fs it s ps hst hok hfr
      have hunf : walkLoop w root (fuel + 1) it s ps =
          match loopBody w root f it s ps with
          | (none, s1, parsed1) => ⟨Outcome.incrementedEnd, s1, parsed1⟩
          | (some it1, s1, parsed1) => walkLoop w root fuel it1 s1 parsed1 := by
        rw [walkLoop, hst]
      rw [hunf]
      -- what the round itself parsed
      have hround : ∃ one : List Entry,
          (loopBody w root f it s ps).2.2 = ps ++ one ∧
          (∀ e ∈ one, e.parent.length ≤ 1 ∧ FileAt tree e.parent e.name) ∧
          (loopBody w root f it s ps).2.1 =
            parseScripts w (one.map (fun e => entryPath root e.parent e.name)) s := by
        rcases hparsed with ⟨h1, h2⟩ | ⟨name, hfile, hlen, h1, h2⟩
        · exact ⟨[], by simp [h2], by simp, by simp [h1, parseScripts]⟩
        · refine ⟨[⟨f.dir, name⟩], h2, ?_, ?_⟩
          · intro e he
            simp only [List.mem_singleton] at he
            rw [he]
            exact ⟨hlen, hfile⟩
          · simp [h1, parseScripts]
      obtain ⟨one, hone1, hone2, hone3⟩ := hround
      rcases hb : loopBody w root f it s ps with ⟨nit, s1, ps1⟩
      rw [hb] at hnext hone1 hone3
      simp only at hnext hone1 hone3
      cases nit with
      | none =>
        refine ⟨one, hone1, hone2, hone3, ?_⟩
        intro _
        simp
      | some it1 =>
        obtain ⟨hok1, hfr1, hlt⟩ := hnext it1 rfl
        obtain ⟨more, hm1, hm2, hm3, hm4⟩ := ih it1 s1 ps1 hok1 hfr1
        refine ⟨one ++ more, ?_, ?_, ?_, ?_⟩
        · simp only
          rw [hm1, hone1, List.append_assoc]
        · intro e he
          rcases List.mem_append.mp he with h | h
          · exact hone2 e h
          · exact hm2 e h
        · simp only
          rw [hm3, hone3, List.map_append, parseScripts_append]
        · intro hle
          simp only
          apply hm4
          rw [hst] at hlt
          omega

/-- The iterator moves and the entries parsed in one round do not depend on the globals. -/
theorem loopBody_indep (w : Nat) (root : Path) (f : Frame) (it : Iter) (s t : State)
    (ps : List Entry) :
    (loopBody w root f it s ps).1 = (loopBody w root f it t ps).1 ∧
    (loopBody w root f it s ps).2.2 = (loopBody w root f it t ps).2.2 := by
  unfold loopBody
  by_cases hd : it.depth > 1
  · rw [if_pos hd, if_pos hd]
    exact ⟨rfl, rfl⟩
  · rw [if_neg hd, if_neg hd]
    obtain ⟨fdir, ⟨name, node⟩, frest⟩ := f
    cases node with
    | file => exact ⟨rfl, rfl⟩
    | other => exact ⟨rfl, rfl⟩
    | dir children =>
      simp only
      split <;> exact ⟨rfl, rfl⟩

/-- The outcome of a walk and the entries it parses do not depend on the globals. -/
theorem walkLoop_indep (w : Nat) (root : Path) (fuel : Nat) (it : Iter) (s t : State)
    (ps : List Entry) :
    (walkLoop w root fuel it s ps).outcome = (walkLoop w root fuel it t ps).outcome ∧
    (walkLoop w root fuel it s ps).parsed = (walkLoop w root fuel it t ps).parsed := by
  induction fuel generalizing it s t ps with
  | zero =>
    cases hst : it.stack <;> simp [walkLoop, hst]
  | succ fuel ih =>
    cases hst : it.stack with
    | nil => simp [walkLoop, hst]
    | cons f fs =>
      have hs : walkLoop w root (fuel + 1) it s ps =
          match loopBody w root f it s ps with
          | (none, s1, parsed1) => ⟨Outcome.incrementedEnd, s1, parsed1⟩
          | (some it1, s1, parsed1) => walkLoop w root fuel it1 s1 parsed1 := by
        rw [walkLoop, hst]
      have ht : walkLoop w root (fuel + 1) it t ps =
          match loopBody w root f it t ps with
          | (none, s1, parsed1) => ⟨Outcome.incrementedEnd, s1, parsed1⟩
          | (some it1, s1, parsed1) => walkLoop w root fuel it1 s1 parsed1 := by
        rw [walkLoop, hst]
      rw [hs, ht]
      obtain ⟨h1, h2⟩ := loopBody_indep w root f it s t ps
      rcases hb : loopBody w root f it s ps with ⟨nit, s1, ps1⟩
      rcases hc : loopBody w root f it t ps with ⟨nit2, t1, ps2⟩
      rw [hb, hc] at h1 h2
      simp only at h1 h2
      subst h1 h2
      cases nit with
      | none => exact ⟨rfl, rfl⟩
      | some it1 => exact ih it1 s1 t1 ps1

theorem dirsOK_start (tree : List (Str × Node)) : DirsOK (Iter.start tree).stack := by
  cases tree <;> simp [Iter.start, DirsOK]

theorem framesOK_start (tree : List (Str × Node)) :
    ∀ g ∈ (Iter.start tree).stack, FrameOK tree g := by
  cases tree with
  | nil => simp [Iter.start]
  | cons c cs =>
    intro g hg
    simp only [Iter.start, List.mem_singleton] at hg
    rw [hg]
    exact ⟨c :: cs, DirAt.root, fun e he => he⟩

theorem remaining_start (tree : List (Str × Node)) :
    remaining (Iter.start tree).stack = sizeEntries tree := by
  cases tree with
  | nil => rfl
  | cons c cs =>
    obtain ⟨n, nd⟩ := c
    simp [Iter.start, remaining, lowerRemaining, sizeEntries]

/-- The step budget of `parseScriptFolder` is never used up: the walk either finishes or
stops at an increment of the end iterator. -/
theorem parseScriptFolder_outcome (w : Nat) (root : Path) (tree : List (Str × Node))
    (s : State) : (parseScriptFolder w root tree s).outcome ≠ Outcome.outOfFuel := by
  obtain ⟨_, _, _, _, h⟩ :=
    walkLoop_spec w root tree (sizeEntries tree) (Iter.start tree) s [] (dirsOK_start tree)
      (framesOK_start tree)
  exact h (le_of_eq (remaining_start tree))

theorem mem_emplace {κ : Type} [DecidableEq κ] (k : κ) (v : Path) (m : List (κ × Path))
    (x : κ × Path) (h : x ∈ emplace k v m) : x ∈ m ∨ x = (k, v) := by
  induction m with
  | nil =>
    simp only [emplace, List.mem_singleton] at h
    exact Or.inr h
  | cons e m ih =>
    obtain ⟨k1, v1⟩ := e
    by_cases hk : k1 = k
    · simp only [emplace, hk, if_true] at h
      exact Or.inl (by rw [hk]; exact h)
    · simp only [emplace, hk, if_false, List.mem_cons] at h
      rcases h with h | h
      · exact Or.inl (by rw [h]; exact List.mem_cons_self _ _)
      · rcases ih h with h | h
        · exact Or.inl (List.mem_cons_of_mem _ h)
        · exact Or.inr h

/-- Every entry of the registry after one `parseScript` is an old one or holds the path. -/
theorem mem_parseScript (w : Nat) (path : Path) (s : State) :
    (∀ x ∈ (parseScript w path s).scripts, x ∈ s.scripts ∨ x.2 = path) ∧
    (∀ x ∈ (parseScript w path s).non_card_scripts,
      x ∈ s.non_card_scripts ∨ x.2 = path) := by
  rcases parseScript_cases w path with ⟨c, _, _, h3⟩ | ⟨_, _, h3⟩ | ⟨_, _, h3⟩
  · rw [h3]
    refine ⟨fun x hx => ?_, fun x hx => Or.inl hx⟩
    rcases mem_emplace c path _ x hx with h | h
    · exact Or.inl h
    · exact Or.inr (by rw [h])
  · rw [h3]
    refine ⟨fun x hx => Or.inl hx, fun x hx => ?_⟩
    rcases mem_emplace _ path _ x hx with h | h
    · exact Or.inl h
    · exact Or.inr (by rw [h])
  · rw [h3]
    exact ⟨fun x hx => Or.inl hx, fun x hx => Or.inl hx⟩

/-- Every entry of the registry after a sequence of files is an old one or holds the path
of one of the files. -/
theorem mem_parseScripts (w : Nat) (files : List Path) (s : State) :
    (∀ x ∈ (parseScripts w files s).scripts, x ∈ s.scripts ∨ x.2 ∈ files) ∧
    (∀ x ∈ (parseScripts w files s).non_card_scripts,
      x ∈ s.non_card_scripts ∨ x.2 ∈ files) := by
  induction files generalizing s with
  | nil => exact ⟨fun x hx => Or.inl hx, fun x hx => Or.inl hx⟩
  | cons f fs ih =>
    have hstep : parseScripts w (f :: fs) s = parseScripts w fs (parseScript w f s) := rfl
    rw [hstep]
    obtain ⟨i1, i2⟩ := ih (parseScript w f s)
    obtain ⟨p1, p2⟩ := mem_parseScript w f s
    constructor
    · intro x hx
      rcases i1 x hx with h | h
      · rcases p1 x h with h | h
        · exact Or.inl h
        · exact Or.inr (by rw [h]; exact List.mem_cons_self _ _)
      · exact Or.inr (List.mem_cons_of_mem _ h)
    · intro x hx
      rcases i2 x hx with h | h
      · rcases p2 x h with h | h
        · exact Or.inl h
        · exact Or.inr (by rw [h]; exact List.mem_cons_self _ _)
      · exact Or.inr (List.mem_cons_of_mem _ h)

/-! ## C6 to C9: what the walk hands to `parseScript` -/

/-- C6, evaluated at a failing input: in the root holding a/b/x.lua and a/c7.lua, with b
enumerated before c7.lua, the regular file a/c7.lua lies at depth 1 in a directory whose
name does not start with a period, yet the walk ends normally without handing it to
parseScript, and code 7 is not registered. -/
theorem C6_depth_one_file_skipped :
    FileAt [("a".toList, Node.dir [("b".toList, Node.dir [("x.lua".toList, Node.file)]),
        ("c7.lua".toList, Node.file)])] ["a".toList] "c7.lua".toList ∧
    parseScriptFolder 64 ".".toList
        [("a".toList, Node.dir [("b".toList, Node.dir [("x.lua".toList, Node.file)]),
          ("c7.lua".toList, Node.file)])] State.init =
      ⟨Outcome.finished, State.init, []⟩ ∧
    find 7 (parseScriptFolder 64 ".".toList
        [("a".toList, Node.dir [("b".toList, Node.dir [("x.lua".toList, Node.file)]),
          ("c7.lua".toList, Node.file)])] State.init).state.scripts = none := by
  refine ⟨⟨_, DirAt.sub [] _ "a".toList _ DirAt.root (List.mem_cons_self _ _), ?_⟩,
    by decide, by decide⟩
  exact List.mem_cons_of_mem _ (List.mem_cons_self _ _)

/-- C7, evaluated at a failing input: in the root holding a/b/x.lua and .git/c5.lua, with a
enumerated before .git, the walk enters .git, hands .git/c5.lua to parseScript and
registers code 5. -/
theorem C7_hidden_directory_entered :
    parseScriptFolder 64 ".".toList
        [("a".toList, Node.dir [("b".toList, Node.dir [("x.lua".toList, Node.file)])]),
          (".git".toList, Node.dir [("c5.lua".toList, Node.file)])] State.init =
      ⟨Outcome.finished, { State.init with scripts := [(5, "./.git/c5.lua".toList)] },
        [⟨[".git".toList], "c5.lua".toList⟩]⟩ := by
  decide

/-- C8, evaluated at a failing input: in the root holding only a/b/x.lua, the pop at
x.lua leaves the end iterator and the increment of the loop is applied to it. -/
theorem C8_end_iterator_incremented :
    (parseScriptFolder 64 ".".toList
        [("a".toList, Node.dir [("b".toList, Node.dir [("x.lua".toList, Node.file)])])]
        State.init).outcome = Outcome.incrementedEnd ∧
    Iter.pop ⟨[⟨["a".toList, "b".toList], ("x.lua".toList, Node.file), []⟩,
        ⟨["a".toList], ("b".toList, Node.dir [("x.lua".toList, Node.file)]), []⟩,
        ⟨[], ("a".toList, Node.dir [("b".toList, Node.dir [("x.lua".toList, Node.file)])]),
          []⟩], true⟩ = ⟨[], true⟩ ∧
    Iter.increment ⟨[], true⟩ = none := by
  exact ⟨by decide, rfl, rfl⟩

/-- What a walk parses lies at depth at most 1 in the tree, and the globals after the walk
are those obtained by feeding exactly the parsed files to `parseScript`. -/
theorem parseScriptFolder_summary (w : Nat) (root : Path) (tree : List (Str × Node))
    (s : State) :
    (∀ e ∈ (parseScriptFolder w root tree s).parsed,
      e.parent.length ≤ 1 ∧ FileAt tree e.parent e.name) ∧
    (parseScriptFolder w root tree s).state =
      parseScripts w ((parseScriptFolder w root tree s).parsed.map
        (fun e => entryPath root e.parent e.name)) s := by
  obtain ⟨new, h1, h2, h3, _⟩ :=
    walkLoop_spec w root tree (sizeEntries tree) (Iter.start tree) s [] (dirsOK_start tree)
      (framesOK_start tree)
  have hp : (parseScriptFolder w root tree s).parsed = new := by
    simpa [parseScriptFolder] using h1
  rw [hp]
  exact ⟨h2, h3⟩

/-- C9: whatever the tree under the scan root and the order of its entries, every entry
that parseScriptFolder hands to parseScript is a regular file of the tree lying directly
in the root or directly in a first-level directory; the globals after the walk are those
obtained by feeding exactly these files to parseScript, so every entry of scripts and
non_card_scripts is an old one or holds the path of such a file.  The walk model never
runs out of steps. -/
theorem C9_no_file_below_depth_one (w : Nat) (root : Path) (tree : List (Str × Node))
    (s : State) :
    (parseScriptFolder w root tree s).outcome ≠ Outcome.outOfFuel ∧
    (∀ e ∈ (parseScriptFolder w root tree s).parsed,
      e.parent.length ≤ 1 ∧ FileAt tree e.parent e.name) ∧
    (parseScriptFolder w root tree s).state =
      parseScripts w ((parseScriptFolder w root tree s).parsed.map
        (fun e => entryPath root e.parent e.name)) s ∧
    (∀ x ∈ (parseScriptFolder w root tree s).state.scripts, x ∈ s.scripts ∨
      ∃ e ∈ (parseScriptFolder w root tree s).parsed,
        e.parent.length ≤ 1 ∧ x.2 = entryPath root e.parent e.name) ∧
    (∀ x ∈ (parseScriptFolder w root tree s).state.non_card_scripts,
      x ∈ s.non_card_scripts ∨
      ∃ e ∈ (parseScriptFolder w root tree s).parsed,
        e.parent.length ≤ 1 ∧ x.2 = entryPath root e.parent e.name) := by
  obtain ⟨h2, hs⟩ := parseScriptFolder_summary w root tree s
  obtain ⟨m1, m2⟩ := mem_parseScripts w ((parseScriptFolder w root tree s).parsed.map
    (fun e => entryPath root e.parent e.name)) s
  rw [← hs] at m1 m2
  refine ⟨parseScriptFolder_outcome w root tree s, h2, hs, ?_, ?_⟩
  · intro x hx
    rcases m1 x hx with h | h
    · exact Or.inl h
    · obtain ⟨e, he, hxe⟩ := List.mem_map.mp h
      exact Or.inr ⟨e, he, (h2 e he).1, hxe.symm⟩
  · intro x hx
    rcases m2 x hx with h | h
    · exact Or.inl h
    · obtain ⟨e, he, hxe⟩ := List.mem_map.mp h
      exact Or.inr ⟨e, he, (h2 e he).1, hxe.symm⟩

/-- Feeding a sequence of files twice is feeding it once. -/
theorem parseScripts_twice (w : Nat) (files : List Path) (s : State) :
    parseScripts w (files ++ files) s = parseScripts w files s := by
  rw [parseScripts_append]
  apply parseScripts_of_present
  intro f hf
  apply parseScript_of_present
  · intro k hk
    rw [find_scripts_parseScripts]
    have hex : (files.find? (fun g => decide (codeKey w g = some k))).isSome = true := by
      rw [List.find?_isSome]
      exact ⟨f, hf, by simpa using hk⟩
    cases h1 : find k s.scripts with
    | some p => simp
    | none =>
      obtain ⟨g, hg⟩ := Option.isSome_iff_exists.mp hex
      simp [hg]
  · intro n hn
    rw [find_names_parseScripts]
    have hex : (files.find? (fun g => decide (nameKey w g = some n))).isSome = true := by
      rw [List.find?_isSome]
      exact ⟨f, hf, by simpa using hn⟩
    cases h1 : find n s.non_card_scripts with
    | some p => simp
    | none =>
      obtain ⟨g, hg⟩ := Option.isSome_iff_exists.mp hex
      simp [hg]

/-- C5: scanning is idempotent.  Feeding a sequence of files twice gives the same globals,
in particular the same scripts and non_card_scripts, as feeding it once, from every
starting registry; and walking the same root a second time, as when it is passed twice on
the command line, leaves the globals of the first walk as they are. -/
theorem C5_scan_idempotent (w : Nat) :
    (∀ (files : List Path) (s : State),
      parseScripts w (files ++ files) s = parseScripts w files s) ∧
    (∀ (root : Path) (tree : List (Str × Node)) (s : State),
      (parseScriptFolder w root tree (parseScriptFolder w root tree s).state).state =
        (parseScriptFolder w root tree s).state) := by
  refine ⟨parseScripts_twice w, ?_⟩
  intro root tree s
  obtain ⟨_, h1⟩ := parseScriptFolder_summary w root tree s
  obtain ⟨_, h2⟩ :=
    parseScriptFolder_summary w root tree (parseScriptFolder w root tree s).state
  have hsame : (parseScriptFolder w root tree (parseScriptFolder w root tree s).state).parsed =
      (parseScriptFolder w root tree s).parsed :=
    (walkLoop_indep w root (sizeEntries tree) (Iter.start tree) _ _ []).2
  rw [h2, hsame]
  conv_lhs => rw [h1]
  rw [← parseScripts_append, parseScripts_twice]
  exact h1.symm

/-! ## C10: the exclusion policy -/

/-- C10: mustNotParseAsCard code is true exactly when 419 <= code <= 422 or
code = 151000000, for every code (in particular every unsigned 32-bit one). -/
theorem C10_mustNotParseAsCard (code : Nat) :
    mustNotParseAsCard code = true ↔ (419 ≤ code ∧ code ≤ 422) ∨ code = 151000000 := by
  simp [mustNotParseAsCard]

/-! ## C11: digits beyond 32 bits -/

/-- Digits whose value exceeds `ULONG_MAX` make `stoul` throw, so no code is returned. -/
theorem tryParseCode_out_of_range (w : Nat) (p : Path) (ds : Str) (hne : ds ≠ [])
    (hd : ∀ c ∈ ds, isdigit c = true) (hv : 2 ^ w - 1 < digitsValue ds)
    (hf : filename p = 'c' :: ds ++ ".lua".toList) : tryParseCode w p = none := by
  obtain ⟨hs, _⟩ := card_name_parts p ds hf
  obtain ⟨d, t, rfl⟩ := List.exists_cons_of_ne_nil hne
  have hdig : isdigit d = true := hd d (List.mem_cons_self _ _)
  have hsp : isspace d = false := isspace_of_isdigit d hdig
  obtain ⟨hm, hp⟩ := not_sign_of_isdigit d hdig
  have htake : List.takeWhile isdigit (d :: t) = d :: t :=
    List.takeWhile_eq_self_iff.mpr hd
  have hst : stoul w (d :: t) = none := by
    simp [stoul, skipSign, List.dropWhile_cons, hsp, hm, hp, htake, hv]
  unfold tryParseCode
  rw [hs]
  simp only [List.drop_succ_cons, List.drop_zero, hst]
  split <;> rfl

/-- C11, evaluated at a failing input: with a 64-bit unsigned long the names
c4294967296.lua and c4294967303.lua, whose digits exceed 2^32 - 1, get the codes 0 and 7
(the value modulo 2^32); parseScript registers r/c4294967303.lua in scripts under 7, and
the lookup of c4294967303.lua resolves through scripts to the file registered for 7.
With a 32-bit unsigned long the same name gets no code. -/
theorem C11_overflow_wraps :
    tryParseCode 64 "c4294967296.lua".toList = some 0 ∧
    tryParseCode 64 "c4294967303.lua".toList = some 7 ∧
    parseScript 64 "r/c4294967303.lua".toList State.init =
      { State.init with scripts := [(7, "r/c4294967303.lua".toList)] } ∧
    scriptReader 64 (fun _ => FileRead.content "x".toList) (fun _ _ _ st => (1, st))
        "c4294967303.lua".toList { State.init with scripts := [(7, "r/c7.lua".toList)] } =
      (1, { State.init with
        scripts := [(7, "r/c7.lua".toList)]
        calls := [EngineCall.LoadScript "x".toList 1 "c7.lua".toList] }) ∧
    tryParseCode 32 "c4294967296.lua".toList = none := by
  refine ⟨by decide, by decide, by decide, by decide, by decide⟩

/-! ## C12: other extensions -/

/-- C12: a filename whose extension is not exactly .lua gets no code from tryParseCode,
and parseScript leaves the globals, so scripts and non_card_scripts, unchanged. -/
theorem C12_other_extension (w : Nat) (path : Path) (s : State)
    (he : extension path ≠ ".lua".toList) :
    tryParseCode w path = none ∧ tryParseCode w (filename path) = none ∧
    parseScript w path s = s := by
  have hnone : tryParseCode w path = none := by
    cases h : tryParseCode w path with
    | none => rfl
    | some c => exact absurd (extension_of_tryParseCode w path c h) he
  refine ⟨hnone, by rw [tryParseCode_filename]; exact hnone, ?_⟩
  rw [parseScript_eq, hnone]
  simp only [he, if_false]

/-- Witness of C12: c123.txt, c123.LUA and c123 get no code and are not registered. -/
theorem C12_other_extension_witness :
    (tryParseCode 64 "r/c123.txt".toList = none ∧
      parseScript 64 "r/c123.txt".toList State.init = State.init) ∧
    (tryParseCode 64 "r/c123.LUA".toList = none ∧
      parseScript 64 "r/c123.LUA".toList State.init = State.init) ∧
    (tryParseCode 64 "r/c123".toList = none ∧
      parseScript 64 "r/c123".toList State.init = State.init) :=
  have h1 := C12_other_extension 64 "r/c123.txt".toList State.init (by decide)
  have h2 := C12_other_extension 64 "r/c123.LUA".toList State.init (by decide)
  have h3 := C12_other_extension 64 "r/c123".toList State.init (by decide)
  ⟨⟨h1.1, h1.2.2⟩, ⟨h2.1, h2.2.2⟩, ⟨h3.1, h3.2.2⟩⟩

/-! ## C13 and C14: a registered file of zero bytes -/

/-- A lookup that finds a path returns what `loadScript` of that path gives. -/
theorem scriptReader_resolved (w : Nat) (files : Path → FileRead)
    (OCG_LoadScript : Str → Nat → Str → State → Int × State) (name : Str) (path : Path)
    (s : State) (h : ResolvesTo w s name path) :
    scriptReader w files OCG_LoadScript name s =
      (if (loadScript files OCG_LoadScript path s).1 = true then 1 else 0,
        (loadScript files OCG_LoadScript path s).2) := by
  rcases h with ⟨c, hc, hm, hf⟩ | ⟨hm, hf⟩
  · unfold scriptReader
    simp only [hc, hm, hf, Bool.not_false, if_true]
  · unfold scriptReader
    cases hc : tryParseCode w name with
    | none => simp only [hf]
    | some c => simp only [hm c hc, hf, Bool.not_true, Bool.false_eq_true, if_false]

/-- A file of zero bytes is rejected without calling the engine. -/
theorem loadScript_empty (files : Path → FileRead)
    (OCG_LoadScript : Str → Nat → Str → State → Int × State) (path : Path) (s : State)
    (h : files path = FileRead.content []) : loadScript files OCG_LoadScript path s = (false, s) := by
  unfold loadScript
  rw [h]
  rfl

/-- C13: when the file of a registered script can be opened and holds zero bytes,
loadScript returns false and the lookup that resolves to it returns 0; the globals,
among them the record of engine calls, are as before, whatever the engine is: the
entry point OCG_LoadScript is not called. -/
theorem C13_empty_file_rejected (w : Nat) (files : Path → FileRead)
    (OCG_LoadScript : Str → Nat → Str → State → Int × State) (name : Str) (path : Path)
    (s : State) (hfile : files path = FileRead.content []) (hres : ResolvesTo w s name path) :
    loadScript files OCG_LoadScript path s = (false, s) ∧
    scriptReader w files OCG_LoadScript name s = (0, s) ∧
    (scriptReader w files OCG_LoadScript name s).2.calls = s.calls := by
  have hl := loadScript_empty files OCG_LoadScript path s hfile
  have hr : scriptReader w files OCG_LoadScript name s = (0, s) := by
    rw [scriptReader_resolved w files OCG_LoadScript name path s hres, hl]
    rfl
  exact ⟨hl, hr, by rw [hr]⟩

/-- Witness of C13: code 7 registered for the empty file r/c7.lua, requested as c7.lua. -/
theorem C13_empty_file_rejected_witness :
    loadScript (fun _ => FileRead.content []) (fun _ _ _ st => (1, st)) "r/c7.lua".toList
        { State.init with scripts := [(7, "r/c7.lua".toList)] } =
      (false, { State.init with scripts := [(7, "r/c7.lua".toList)] }) ∧
    scriptReader 64 (fun _ => FileRead.content []) (fun _ _ _ st => (1, st)) "c7.lua".toList
        { State.init with scripts := [(7, "r/c7.lua".toList)] } =
      (0, { State.init with scripts := [(7, "r/c7.lua".toList)] }) :=
  have h := C13_empty_file_rejected 64 (fun _ => FileRead.content []) (fun _ _ _ st => (1, st))
    "c7.lua".toList "r/c7.lua".toList { State.init with scripts := [(7, "r/c7.lua".toList)] }
    rfl (Or.inl ⟨7, by decide, by decide, by decide⟩)
  ⟨h.1, h.2.1⟩

/-- A lookup that resolves to a file of zero bytes returns 0 and leaves every global,
the status among them, as it was. -/
theorem scriptReader_empty_file (w : Nat) (files : Path → FileRead)
    (OCG_LoadScript : Str → Nat → Str → State → Int × State) (name : Str) (path : Path)
    (s : State) (hfile : files path = FileRead.content []) (hres : ResolvesTo w s name path) :
    scriptReader w files OCG_LoadScript name s = (0, s) := by
  rw [scriptReader_resolved w files OCG_LoadScript name path s hres,
    loadScript_empty files OCG_LoadScript path s hfile]
  rfl

/-! ## C15: the log handler -/

/-- C15: for every message and each of the four severities, logHandler leaves status_code
at failure whatever it was, and changes neither scripts, non_card_scripts nor
loading_card (nor the record of engine calls); the severities are displayed as Error,
From script, For debug and Undefined. -/
theorem C15_logHandler (string : Str) (type : OCG_LogTypes) (s : State) :
    (logHandler string type s).1.status_code = EXIT_FAILURE ∧
    (logHandler string type s).1.scripts = s.scripts ∧
    (logHandler string type s).1.non_card_scripts = s.non_card_scripts ∧
    (logHandler string type s).1.loading_card = s.loading_card ∧
    (logHandler string type s).1.calls = s.calls ∧
    getLogLevelString OCG_LogTypes.OCG_LOG_TYPE_ERROR = "Error".toList ∧
    getLogLevelString OCG_LogTypes.OCG_LOG_TYPE_FROM_SCRIPT = "From script".toList ∧
    getLogLevelString OCG_LogTypes.OCG_LOG_TYPE_FOR_DEBUG = "For debug".toList ∧
    getLogLevelString OCG_LogTypes.OCG_LOG_TYPE_UNDEFINED = "Undefined".toList :=
  ⟨rfl, rfl, rfl, rfl, rfl, rfl, rfl, rfl, rfl⟩

/-! ## C16: the status only moves to failure -/

theorem statusKept_refl (s : State) : StatusKept s s := ⟨fun h => h, fun h => h⟩

theorem statusKept_trans {s t u : State} (h1 : StatusKept s t) (h2 : StatusKept t u) :
    StatusKept s u := ⟨fun h => h2.1 (h1.1 h), fun h => h2.2 (h1.2 h)⟩

theorem statusKept_of_eq {s t : State} (h : t.status_code = s.status_code) :
    StatusKept s t := by
  unfold StatusKept
  rw [h]
  exact ⟨fun h => h, fun h => h⟩

theorem statusKept_failure (s t : State) (h : t.status_code = EXIT_FAILURE) :
    StatusKept s t := ⟨fun _ => h, fun _ => Or.inr h⟩

/-- `loadScript` keeps the status when the engine does. -/
theorem statusKept_loadScript (files : Path → FileRead)
    (OCG_LoadScript : Str → Nat → Str → State → Int × State)
    (heng : ∀ buffer length name st, StatusKept st (OCG_LoadScript buffer length name st).2)
    (path : Path) (s : State) : StatusKept s (loadScript files OCG_LoadScript path s).2 := by
  unfold loadScript
  cases files path with
  | cannotOpen => exact statusKept_refl s
  | readFails => exact statusKept_of_eq rfl
  | content buffer =>
    by_cases hlen : buffer.length = 0
    · simp only [hlen, if_true]
      exact statusKept_refl s
    · simp only [hlen, if_false]
      have h1 : StatusKept s { s with calls := s.calls ++
          [EngineCall.LoadScript buffer (buffer.length % 2 ^ 32) (filename path)] } :=
        statusKept_of_eq rfl
      exact statusKept_trans h1 (heng _ _ _ _)

/-- The globals after `scriptReader` are the old ones, the old ones with the status at
failure, or those left by `loadScript` of some path. -/
theorem scriptReader_state_cases (w : Nat) (files : Path → FileRead)
    (OCG_LoadScript : Str → Nat → Str → State → Int × State) (name : Str) (s : State) :
    (scriptReader w files OCG_LoadScript name s).2 = s ∨
    (scriptReader w files OCG_LoadScript name s).2 = { s with status_code := EXIT_FAILURE } ∨
    ∃ path, (scriptReader w files OCG_LoadScript name s).2 =
      (loadScript files OCG_LoadScript path s).2 := by
  unfold scriptReader
  dsimp only
  repeat' split
  all_goals first
    | exact Or.inl rfl
    | exact Or.inr (Or.inl rfl)
    | exact Or.inr (Or.inr ⟨_, rfl⟩)

/-- `scriptReader` keeps the status when the engine does. -/
theorem statusKept_scriptReader (w : Nat) (files : Path → FileRead)
    (OCG_LoadScript : Str → Nat → Str → State → Int × State)
    (heng : ∀ buffer length name st, StatusKept st (OCG_LoadScript buffer length name st).2)
    (name : Str) (s : State) :
    StatusKept s (scriptReader w files OCG_LoadScript name s).2 := by
  rcases scriptReader_state_cases w files OCG_LoadScript name s with h | h | ⟨path, h⟩
  · rw [h]
    exact statusKept_refl s
  · rw [h]
    exact statusKept_failure _ _ rfl
  · rw [h]
    exact statusKept_loadScript files OCG_LoadScript heng path s

/-- Whatever the engine does during a call, the callbacks it invokes keep the status. -/
theorem statusKept_run (w : Nat) (files : Path → FileRead) (b : Behaviour) (s : State) :
    StatusKept s (run w files b s).2 := by
  induction b generalizing s with
  | ret result => exact statusKept_refl s
  | cardReader code next ih =>
    rw [run]
    exact ih _
  | scriptReader name load next ihload ihnext =>
    rw [run]
    exact statusKept_trans
      (statusKept_scriptReader w files _ (fun buffer length nm st => ihload buffer length nm st)
        name s) (ihnext _ _)
  | logHandler string type next ih =>
    rw [run]
    exact statusKept_trans (statusKept_failure s _ rfl) (ih _)

theorem statusKept_callEngine (w : Nat) (files : Path → FileRead) (call : EngineCall)
    (b : Behaviour) (s : State) : StatusKept s (callEngine w files call b s).2 := by
  have h1 : StatusKept s { s with calls := s.calls ++ [call] } := statusKept_of_eq rfl
  exact statusKept_trans h1 (statusKept_run w files b _)

theorem statusKept_loadBaseScript (w : Nat) (files : Path → FileRead) (core : Core)
    (path : Path) (s : State) : StatusKept s (loadBaseScript w files core path s).2 :=
  statusKept_loadScript files _ (fun _ _ _ st => statusKept_run w files _ st) path s

theorem statusKept_newCard (w : Nat) (files : Path → FileRead) (core : Core) (s : State)
    (code : Nat) : StatusKept s (newCard w files core s code) := by
  have h1 : StatusKept s { s with loading_card := code } := statusKept_of_eq rfl
  exact statusKept_trans h1 (statusKept_callEngine w files _ _ _)

theorem statusKept_foldl_newCard (w : Nat) (files : Path → FileRead) (core : Core)
    (codes : List Nat) (s : State) :
    StatusKept s (codes.foldl (newCard w files core) s) := by
  induction codes generalizing s with
  | nil => exact statusKept_refl s
  | cons c cs ih => exact statusKept_trans (statusKept_newCard w files core s c) (ih _)

theorem statusKept_newCards (w : Nat) (files : Path → FileRead) (core : Core) (s : State) :
    StatusKept s (newCards w files core s) :=
  statusKept_foldl_newCard w files core _ s

theorem statusKept_destroyDuel (w : Nat) (files : Path → FileRead) (core : Core)
    (s : State) : StatusKept s (destroyDuel w files core s) :=
  statusKept_callEngine w files _ _ s

theorem statusKept_createDuel (w : Nat) (files : Path → FileRead) (core : Core)
    (s : State) : StatusKept s (createDuel w files core s).2 :=
  statusKept_callEngine w files _ _ s

theorem statusKept_getVersion (s : State) : StatusKept s (getVersion s) :=
  statusKept_of_eq rfl

/-- The whole of `main` after the scan keeps the status. -/
theorem statusKept_driver (api : ApiConstants) (w : Nat) (files : Path → FileRead)
    (core : Option Core) (s : State) : StatusKept s (driver api w files core s).state := by
  unfold driver
  split
  · rename_i utility constant _ _
    cases core with
    | none => exact statusKept_refl s
    | some c =>
      have h1 := statusKept_getVersion s
      have h2 := statusKept_trans h1 (statusKept_createDuel w files c (getVersion s))
      have h3 := statusKept_trans h2
        (statusKept_loadBaseScript w files c constant (createDuel w files c (getVersion s)).2)
      have h4 := statusKept_trans h3 (statusKept_loadBaseScript w files c utility
        (loadBaseScript w files c constant (createDuel w files c (getVersion s)).2).2)
      show StatusKept s (session api w files c utility constant s).state
      unfold session
      simp only
      split
      · exact statusKept_refl s
      · split
        · exact h1
        · split
          · exact statusKept_trans h2 (statusKept_destroyDuel w files c _)
          · split
            · exact h3
            · split
              · exact h4
              · exact statusKept_trans h4 (statusKept_trans
                  (statusKept_newCards w files c _) (statusKept_destroyDuel w files c _))
  · exact statusKept_refl s

/-- The scan never writes the status. -/
theorem parseScript_status (w : Nat) (path : Path) (s : State) :
    (parseScript w path s).status_code = s.status_code := by
  rcases parseScript_cases w path with ⟨c, _, _, h⟩ | ⟨_, _, h⟩ | ⟨_, _, h⟩ <;> rw [h]

theorem parseScripts_status (w : Nat) (files : List Path) (s : State) :
    (parseScripts w files s).status_code = s.status_code := by
  induction files generalizing s with
  | nil => rfl
  | cons f fs ih =>
    have hstep : parseScripts w (f :: fs) s = parseScripts w fs (parseScript w f s) := rfl
    rw [hstep, ih, parseScript_status]

theorem parseScriptFolder_status (w : Nat) (root : Path) (tree : List (Str × Node))
    (s : State) : (parseScriptFolder w root tree s).state.status_code = s.status_code := by
  rw [(parseScriptFolder_summary w root tree s).2, parseScripts_status]

theorem scanFolders_status (w : Nat) (folders : List (Path × List (Str × Node)))
    (s t : State) (h : scanFolders w folders s = some t) :
    t.status_code = s.status_code := by
  induction folders generalizing s with
  | nil =>
    simp only [scanFolders, Option.some.injEq] at h
    rw [← h]
  | cons f fs ih =>
    obtain ⟨root, tree⟩ := f
    unfold scanFolders at h
    split at h
    · rw [ih _ h, parseScriptFolder_status]
    · simp at h

/-- When `main` returns: the scan completes and no read has terminated the process; what
it returns is then what `driver` gives on the globals left by the scan. -/
theorem main_eq_some (api : ApiConstants) (w : Nat) (files : Path → FileRead)
    (core : Option Core) (cwd : List (Str × Node)) (argv : List (Path × List (Str × Node)))
    (r : MainResult) :
    main api w files core cwd argv = some r ↔
      ∃ s, scanFolders w (foldersToScan cwd argv) State.init = some s ∧
        (driver api w files core s).state.aborted = false ∧
        r = driver api w files core s := by
  unfold main
  cases hscan : scanFolders w (foldersToScan cwd argv) State.init with
  | none => simp
  | some t =>
    cases hab : (driver api w files core t).state.aborted with
    | true => simp [hab]
    | false =>
      simp only [hab, Bool.false_eq_true, if_false, Option.some.injEq]
      constructor
      · intro h
        exact ⟨t, rfl, hab, h.symm⟩
      · rintro ⟨u, hu, _, hr⟩
        rw [← hu] at hr
        exact hr.symm

/-- C16: the status is monotone.  Each of cardReader, scriptReader and logHandler, the
loadScript of main, and each step of main after the scan (version query, session
creation, card instantiation, the whole card loop, session destruction, and main after
the scan as a whole) leaves a failure in place, whatever the engine does during the
call, and keeps the status among success (0) and failure (1); the status starts at
success, and whenever main returns it is 0 or 1. -/
theorem C16_status_monotone (api : ApiConstants) (w : Nat) (files : Path → FileRead) :
    (∀ code data s, StatusKept s (cardReader code data s).2) ∧
    (∀ (load : Str → Nat → Str → Behaviour) name s,
      StatusKept s (scriptReader w files
        (fun buffer length nm st => run w files (load buffer length nm) st) name s).2) ∧
    (∀ string type s, StatusKept s (logHandler string type s).1) ∧
    (∀ core path s, StatusKept s (loadBaseScript w files core path s).2) ∧
    (∀ s, StatusKept s (getVersion s)) ∧
    (∀ core s, StatusKept s (createDuel w files core s).2) ∧
    (∀ core s code, StatusKept s (newCard w files core s code)) ∧
    (∀ core s, StatusKept s (newCards w files core s)) ∧
    (∀ core s, StatusKept s (destroyDuel w files core s)) ∧
    (∀ core s, StatusKept s (driver api w files core s).state) ∧
    State.init.status_code = EXIT_SUCCESS ∧
    (∀ core cwd argv r, main api w files core cwd argv = some r →
      r.state.status_code = EXIT_SUCCESS ∨ r.state.status_code = EXIT_FAILURE) := by
  refine ⟨fun _ _ s => statusKept_refl s,
    fun load name s => statusKept_scriptReader w files _
      (fun _ _ _ st => statusKept_run w files _ st) name s,
    fun _ _ s => statusKept_failure s _ rfl,
    fun core path s => statusKept_loadBaseScript w files core path s,
    statusKept_getVersion,
    fun core s => statusKept_createDuel w files core s,
    fun core s code => statusKept_newCard w files core s code,
    fun core s => statusKept_newCards w files core s,
    fun core s => statusKept_destroyDuel w files core s,
    fun core s => statusKept_driver api w files core s, rfl, ?_⟩
  intro core cwd argv r h
  obtain ⟨t, hscan, _, hr⟩ := (main_eq_some api w files core cwd argv r).mp h
  rw [hr]
  have ht : t.status_code = EXIT_SUCCESS := scanFolders_status w _ _ t hscan
  exact (statusKept_driver api w files core t).2 (Or.inl ht)

/-! ## C17 and C18: the exit paths of `main` -/

/-- The two ways `main` runs after the scan: without fatal step it reaches the end and
returns the status read after the session is destroyed; otherwise it returns failure
through an earlier return statement. -/
theorem driver_cases (api : ApiConstants) (w : Nat) (files : Path → FileRead)
    (core : Option Core) (s : State) :
    (∃ t c, NoFatalStep api w files core s t ∧ core = some c ∧
      driver api w files core s =
        ⟨(destroyDuel w files c t).status_code, ExitPath.completed,
          destroyDuel w files c t⟩) ∨
    ((¬ ∃ t, NoFatalStep api w files core s t) ∧
      (driver api w files core s).returned = EXIT_FAILURE ∧
      (driver api w files core s).path ≠ ExitPath.completed) := by
  cases hu : find "utility.lua".toList s.non_card_scripts with
  | none =>
    refine Or.inr ⟨?_, ?_, ?_⟩
    · rintro ⟨t, utility, constant, c, h1, _⟩
      rw [hu] at h1
      exact absurd h1 (by simp)
    · unfold driver
      rw [hu]
    · unfold driver
      rw [hu]
      simp
  | some utility =>
    cases hc : find "constant.lua".toList s.non_card_scripts with
    | none =>
      refine Or.inr ⟨?_, ?_, ?_⟩
      · rintro ⟨t, utility1, constant, c, _, h2, _⟩
        rw [hc] at h2
        exact absurd h2 (by simp)
      · unfold driver
        rw [hu, hc]
      · unfold driver
        rw [hu, hc]
        simp
    | some constant =>
      cases core with
      | none =>
        refine Or.inr ⟨?_, ?_, ?_⟩
        · rintro ⟨t, utility1, constant1, c, _, _, h3, _⟩
          exact absurd h3 (by simp)
        · unfold driver
          rw [hu, hc]
        · unfold driver
          rw [hu, hc]
          simp
      | some c =>
        have hd : driver api w files (some c) s =
            if !(c.has_GetVersion && c.has_CreateDuel && c.has_DuelNewCard &&
                c.has_DestroyDuel && c.has_LoadScript) then
              ⟨EXIT_FAILURE, ExitPath.noFunctions, s⟩
            else if c.major ≠ api.OCG_VERSION_MAJOR ∨ c.minor < api.OCG_VERSION_MINOR then
              ⟨EXIT_FAILURE, ExitPath.badVersion, getVersion s⟩
            else if (createDuel w files c (getVersion s)).1 ≠ api.OCG_DUEL_CREATION_SUCCESS
            then ⟨EXIT_FAILURE, ExitPath.creationFailed,
                destroyDuel w files c (createDuel w files c (getVersion s)).2⟩
            else if !(loadBaseScript w files c constant
                (createDuel w files c (getVersion s)).2).1 then
              ⟨EXIT_FAILURE, ExitPath.constantFailed,
                (loadBaseScript w files c constant (createDuel w files c (getVersion s)).2).2⟩
            else if !(loadBaseScript w files c utility
                (loadBaseScript w files c constant
                  (createDuel w files c (getVersion s)).2).2).1 then
              ⟨EXIT_FAILURE, ExitPath.utilityFailed,
                (loadBaseScript w files c utility
                  (loadBaseScript w files c constant
                    (createDuel w files c (getVersion s)).2).2).2⟩
            else
              ⟨(destroyDuel w files c (newCards w files c
                  (loadBaseScript w files c utility
                    (loadBaseScript w files c constant
                      (createDuel w files c (getVersion s)).2).2).2)).status_code,
                ExitPath.completed,
                destroyDuel w files c (newCards w files c
                  (loadBaseScript w files c utility
                    (loadBaseScript w files c constant
                      (createDuel w files c (getVersion s)).2).2).2)⟩ := by
          unfold driver
          rw [hu, hc]
          rfl
        rw [hd]
        by_cases hf : (c.has_GetVersion && c.has_CreateDuel && c.has_DuelNewCard &&
            c.has_DestroyDuel && c.has_LoadScript) = true
        · have hf1 : (!(c.has_GetVersion && c.has_CreateDuel && c.has_DuelNewCard &&
              c.has_DestroyDuel && c.has_LoadScript)) = false := by rw [hf]; rfl
          rw [hf1]
          simp only [Bool.false_eq_true, if_false]
          by_cases hv : c.major ≠ api.OCG_VERSION_MAJOR ∨ c.minor < api.OCG_VERSION_MINOR
          · rw [if_pos hv]
            refine Or.inr ⟨?_, by trivial, by simp⟩
            rintro ⟨t, utility1, constant1, c1, _, _, h3, _, h5, _⟩
            obtain rfl : c = c1 := Option.some.inj h3
            rcases hv with hv | hv
            · exact hv h5.1
            · exact absurd h5.2 (not_le.mpr hv)
          · rw [if_neg hv]
            by_cases hcr : (createDuel w files c (getVersion s)).1 ≠
                api.OCG_DUEL_CREATION_SUCCESS
            · rw [if_pos hcr]
              refine Or.inr ⟨?_, by trivial, by simp⟩
              rintro ⟨t, utility1, constant1, c1, _, _, h3, _, _, h6, _⟩
              obtain rfl : c = c1 := Option.some.inj h3
              exact hcr h6
            · rw [if_neg hcr]
              cases hl1 : (loadBaseScript w files c constant
                  (createDuel w files c (getVersion s)).2).1 with
              | false =>
                simp only [Bool.not_false, if_true]
                refine Or.inr ⟨?_, by trivial, by simp⟩
                rintro ⟨t, utility1, constant1, c1, _, h2, h3, _, _, _, h7, _⟩
                obtain rfl : c = c1 := Option.some.inj h3
                rw [hc] at h2
                obtain rfl : constant = constant1 := Option.some.inj h2
                rw [hl1] at h7
                exact absurd h7 (by simp)
              | true =>
                simp only [Bool.not_true, Bool.false_eq_true, if_false]
                cases hl2 : (loadBaseScript w files c utility
                    (loadBaseScript w files c constant
                      (createDuel w files c (getVersion s)).2).2).1 with
                | false =>
                  simp only [Bool.not_false, if_true]
                  refine Or.inr ⟨?_, by trivial, by simp⟩
                  rintro ⟨t, utility1, constant1, c1, h1, h2, h3, _, _, _, _, h8, _⟩
                  obtain rfl : c = c1 := Option.some.inj h3
                  rw [hc] at h2
                  obtain rfl : constant = constant1 := Option.some.inj h2
                  rw [hu] at h1
                  obtain rfl : utility = utility1 := Option.some.inj h1
                  rw [hl2] at h8
                  exact absurd h8 (by simp)
                | true =>
                  simp only [Bool.not_true, Bool.false_eq_true, if_false]
                  refine Or.inl ⟨_, c, ⟨utility, constant, c, hu, hc, rfl, ?_, ?_, ?_, hl1,
                    hl2, rfl⟩, rfl, rfl⟩
                  · simpa [Bool.and_eq_true, and_assoc] using hf
                  · constructor
                    · by_contra hne
                      exact hv (Or.inl hne)
                    · by_contra hlt
                      exact hv (Or.inr (not_le.mp hlt))
                  · by_contra hne
                    exact hcr hne
        · have hf1 : (!(c.has_GetVersion && c.has_CreateDuel && c.has_DuelNewCard &&
              c.has_DestroyDuel && c.has_LoadScript)) = true := by
            simp only [Bool.not_eq_true] at hf
            rw [hf]
            rfl
          rw [hf1]
          simp only [if_true]
          refine Or.inr ⟨?_, by trivial, by simp⟩
          rintro ⟨t, utility1, constant1, c1, _, _, h3, ⟨f1, f2, f3, f4, f5⟩, _⟩
          obtain rfl : c = c1 := Option.some.inj h3
          apply hf
          rw [f1, f2, f3, f4, f5]
          rfl

/-- Unfolding of `driver` once both base scripts are found and the library is loaded. -/
theorem driver_of_found (api : ApiConstants) (w : Nat) (files : Path → FileRead)
    (c : Core) (utility constant : Path) (s : State)
    (hu : find "utility.lua".toList s.non_card_scripts = some utility)
    (hc : find "constant.lua".toList s.non_card_scripts = some constant) :
    driver api w files (some c) s = session api w files c utility constant s := by
  unfold driver
  rw [hu, hc]

theorem countCall_record (c call : EngineCall) (s : State) :
    countCall c { s with calls := s.calls ++ [call] } =
      countCall c s + if call = c then 1 else 0 := by
  simp only [countCall, List.count_append, List.count_singleton, beq_iff_eq]

/-- `loadScript` records one call of `OCG_LoadScript` at most, and no other call of its
own. -/
theorem countCall_loadScript (c : EngineCall)
    (hc : ∀ buffer length name, EngineCall.LoadScript buffer length name ≠ c)
    (files : Path → FileRead) (OCG_LoadScript : Str → Nat → Str → State → Int × State)
    (heng : ∀ buffer length name st,
      countCall c (OCG_LoadScript buffer length name st).2 = countCall c st)
    (path : Path) (s : State) :
    countCall c (loadScript files OCG_LoadScript path s).2 = countCall c s := by
  unfold loadScript
  cases files path with
  | cannotOpen => rfl
  | readFails => rfl
  | content buffer =>
    by_cases hlen : buffer.length = 0
    · simp only [hlen, if_true]
    · simp only [hlen, if_false]
      rw [heng, countCall_record, if_neg (hc _ _ _)]
      rfl

theorem countCall_scriptReader (c : EngineCall)
    (hc : ∀ buffer length name, EngineCall.LoadScript buffer length name ≠ c)
    (w : Nat) (files : Path → FileRead)
    (OCG_LoadScript : Str → Nat → Str → State → Int × State)
    (heng : ∀ buffer length name st,
      countCall c (OCG_LoadScript buffer length name st).2 = countCall c st)
    (name : Str) (s : State) :
    countCall c (scriptReader w files OCG_LoadScript name s).2 = countCall c s := by
  rcases scriptReader_state_cases w files OCG_LoadScript name s with h | h | ⟨path, h⟩
  · rw [h]
  · rw [h]
    rfl
  · rw [h]
    exact countCall_loadScript c hc files OCG_LoadScript heng path s

/-- During a call the engine reaches no entry point other than `OCG_LoadScript`. -/
theorem countCall_run (c : EngineCall)
    (hc : ∀ buffer length name, EngineCall.LoadScript buffer length name ≠ c)
    (w : Nat) (files : Path → FileRead) (b : Behaviour) (s : State) :
    countCall c (run w files b s).2 = countCall c s := by
  induction b generalizing s with
  | ret result => rfl
  | cardReader code next ih =>
    rw [run, ih]
    rfl
  | scriptReader name load next ihload ihnext =>
    rw [run, ihnext]
    exact countCall_scriptReader c hc w files _
      (fun buffer length nm st => ihload buffer length nm st) name s
  | logHandler string type next ih =>
    rw [run, ih]
    rfl

theorem countCall_callEngine (c : EngineCall)
    (hc : ∀ buffer length name, EngineCall.LoadScript buffer length name ≠ c)
    (w : Nat) (files : Path → FileRead) (call : EngineCall) (b : Behaviour) (s : State) :
    countCall c (callEngine w files call b s).2 =
      countCall c s + if call = c then 1 else 0 := by
  unfold callEngine
  rw [countCall_run c hc, countCall_record]

theorem countCall_loadBaseScript (c : EngineCall)
    (hc : ∀ buffer length name, EngineCall.LoadScript buffer length name ≠ c)
    (w : Nat) (files : Path → FileRead) (core : Core) (path : Path) (s : State) :
    countCall c (loadBaseScript w files core path s).2 = countCall c s :=
  countCall_loadScript c hc files _ (fun _ _ _ st => countCall_run c hc w files _ st) path s

theorem countCall_newCards (c : EngineCall)
    (hc : ∀ buffer length name, EngineCall.LoadScript buffer length name ≠ c)
    (hn : ∀ info, EngineCall.DuelNewCard info ≠ c)
    (w : Nat) (files : Path → FileRead) (core : Core) (s : State) :
    countCall c (newCards w files core s) = countCall c s := by
  have hfold : ∀ (codes : List Nat) (t : State),
      countCall c (codes.foldl (newCard w files core) t) = countCall c t := by
    intro codes
    induction codes with
    | nil => intro t; rfl
    | cons k ks ih =>
      intro t
      rw [List.foldl_cons, ih]
      unfold newCard
      rw [countCall_callEngine c hc, if_neg (hn _)]
      rfl
  exact hfold _ s

/-- On every path through `session`, how often the session is created and destroyed:
it is created unless an entry point is missing or the version is refused, and destroyed
only when creation fails or the end is reached. -/
theorem session_calls (api : ApiConstants) (w : Nat) (files : Path → FileRead)
    (c : Core) (utility constant : Path) (s : State) :
    countCall EngineCall.CreateDuel (session api w files c utility constant s).state =
      countCall EngineCall.CreateDuel s +
        (if (session api w files c utility constant s).path = ExitPath.noFunctions ∨
            (session api w files c utility constant s).path = ExitPath.badVersion
          then 0 else 1) ∧
    countCall EngineCall.DestroyDuel (session api w files c utility constant s).state =
      countCall EngineCall.DestroyDuel s +
        (if (session api w files c utility constant s).path = ExitPath.creationFailed ∨
            (session api w files c utility constant s).path = ExitPath.completed
          then 1 else 0) := by
  have hC : ∀ buffer length name,
      EngineCall.LoadScript buffer length name ≠ EngineCall.CreateDuel := by
    intro _ _ _ h
    cases h
  have hD : ∀ buffer length name,
      EngineCall.LoadScript buffer length name ≠ EngineCall.DestroyDuel := by
    intro _ _ _ h
    cases h
  have hnC : ∀ info, EngineCall.DuelNewCard info ≠ EngineCall.CreateDuel := by
    intro _ h
    cases h
  have hnD : ∀ info, EngineCall.DuelNewCard info ≠ EngineCall.DestroyDuel := by
    intro _ h
    cases h
  have gC : countCall EngineCall.CreateDuel (getVersion s) =
      countCall EngineCall.CreateDuel s := by
    unfold getVersion
    rw [countCall_record]
    rfl
  have gD : countCall EngineCall.DestroyDuel (getVersion s) =
      countCall EngineCall.DestroyDuel s := by
    unfold getVersion
    rw [countCall_record]
    rfl
  have cC : countCall EngineCall.CreateDuel (createDuel w files c (getVersion s)).2 =
      countCall EngineCall.CreateDuel s + 1 := by
    unfold createDuel
    rw [countCall_callEngine _ hC, gC]
    rfl
  have cD : countCall EngineCall.DestroyDuel (createDuel w files c (getVersion s)).2 =
      countCall EngineCall.DestroyDuel s := by
    unfold createDuel
    rw [countCall_callEngine _ hD, gD]
    rfl
  have dC : ∀ t, countCall EngineCall.CreateDuel (destroyDuel w files c t) =
      countCall EngineCall.CreateDuel t := by
    intro t
    unfold destroyDuel
    rw [countCall_callEngine _ hC]
    rfl
  have dD : ∀ t, countCall EngineCall.DestroyDuel (destroyDuel w files c t) =
      countCall EngineCall.DestroyDuel t + 1 := by
    intro t
    unfold destroyDuel
    rw [countCall_callEngine _ hD]
    rfl
  unfold session
  simp only
  split
  · exact ⟨rfl, rfl⟩
  · split
    · exact ⟨gC, gD⟩
    · split
      · exact ⟨by rw [dC, cC]; rfl, by rw [dD, cD]; rfl⟩
      · split
        · exact ⟨by rw [countCall_loadBaseScript _ hC, cC]; rfl,
            by rw [countCall_loadBaseScript _ hD, cD]; rfl⟩
        · split
          · exact ⟨by rw [countCall_loadBaseScript _ hC, countCall_loadBaseScript _ hC, cC]; rfl,
              by rw [countCall_loadBaseScript _ hD, countCall_loadBaseScript _ hD, cD]; rfl⟩
          · exact ⟨by
                rw [dC, countCall_newCards _ hC hnC, countCall_loadBaseScript _ hC,
                  countCall_loadBaseScript _ hC, cC]
                rfl,
              by
                rw [dD, countCall_newCards _ hD hnD, countCall_loadBaseScript _ hD,
                  countCall_loadBaseScript _ hD, cD]
                rfl⟩

/-- C17, evaluated at failing inputs: the current directory holds constant.lua and
utility.lua, the library loads, the version is accepted and the session is created.
When constant.lua is a file of zero bytes, main returns 1 through the return statement
after the failed load of constant.lua, having called OCG_CreateDuel once and
OCG_DestroyDuel never; the same happens when constant.lua loads and utility.lua is a file
of zero bytes. -/
theorem C17_session_not_destroyed :
    main ⟨10, 0, 0⟩ 64 (fun _ => FileRead.content [])
        (some ⟨true, true, true, true, true, 10, 0, Behaviour.ret 0, Behaviour.ret 0,
          fun _ => Behaviour.ret 0, fun _ _ _ => Behaviour.ret 1⟩)
        [("constant.lua".toList, Node.file), ("utility.lua".toList, Node.file)] [] =
      some ⟨1, ExitPath.constantFailed,
        { State.init with
          non_card_scripts := [("constant.lua".toList, "./constant.lua".toList),
            ("utility.lua".toList, "./utility.lua".toList)]
          calls := [EngineCall.GetVersion, EngineCall.CreateDuel] }⟩ ∧
    main ⟨10, 0, 0⟩ 64
        (fun p => if p = "./constant.lua".toList then FileRead.content "x".toList
          else FileRead.content [])
        (some ⟨true, true, true, true, true, 10, 0, Behaviour.ret 0, Behaviour.ret 0,
          fun _ => Behaviour.ret 0, fun _ _ _ => Behaviour.ret 1⟩)
        [("constant.lua".toList, Node.file), ("utility.lua".toList, Node.file)] [] =
      some ⟨1, ExitPath.utilityFailed,
        { State.init with
          non_card_scripts := [("constant.lua".toList, "./constant.lua".toList),
            ("utility.lua".toList, "./utility.lua".toList)]
          calls := [EngineCall.GetVersion, EngineCall.CreateDuel,
            EngineCall.LoadScript "x".toList 1 "constant.lua".toList] }⟩ := by
  exact ⟨by decide, by decide⟩

/-- The globals after the last card are determined by the globals after the scan. -/
theorem noFatalStep_unique (api : ApiConstants) (w : Nat) (files : Path → FileRead)
    (core : Option Core) (s t u : State) (ht : NoFatalStep api w files core s t)
    (hu : NoFatalStep api w files core s u) : t = u := by
  obtain ⟨utility, constant, c, h1, h2, h3, _, _, _, _, _, h9⟩ := ht
  obtain ⟨utility1, constant1, c1, k1, k2, k3, _, _, _, _, _, k9⟩ := hu
  rw [h1] at k1
  rw [h2] at k2
  rw [h3] at k3
  obtain rfl : utility = utility1 := Option.some.inj k1
  obtain rfl : constant = constant1 := Option.some.inj k2
  obtain rfl : c = c1 := Option.some.inj k3
  rw [h9, k9]

/-- Without fatal step, the status after the last card is kept from the scan. -/
theorem noFatalStep_statusKept (api : ApiConstants) (w : Nat) (files : Path → FileRead)
    (core : Option Core) (s t : State) (ht : NoFatalStep api w files core s t) :
    StatusKept s t := by
  obtain ⟨utility, constant, c, _, _, _, _, _, _, _, _, h9⟩ := ht
  rw [h9]
  exact statusKept_trans (statusKept_getVersion s)
    (statusKept_trans (statusKept_createDuel w files c _)
      (statusKept_trans (statusKept_loadBaseScript w files c constant _)
        (statusKept_trans (statusKept_loadBaseScript w files c utility _)
          (statusKept_newCards w files c _))))

/-- A destroy call during which the engine invokes no callback only records the call. -/
theorem destroyDuel_silent (w : Nat) (files : Path → FileRead) (c : Core) (x : Int)
    (t : State) (h : c.OCG_DestroyDuel = Behaviour.ret x) :
    (destroyDuel w files c t).status_code = t.status_code := by
  unfold destroyDuel callEngine
  rw [h, run]

/-- Once a read has terminated the process, `loadScript` leaves that on record. -/
theorem aborted_loadScript (files : Path → FileRead)
    (OCG_LoadScript : Str → Nat → Str → State → Int × State)
    (heng : ∀ buffer length name st, st.aborted = true →
      (OCG_LoadScript buffer length name st).2.aborted = true)
    (path : Path) (s : State) (h : s.aborted = true) :
    (loadScript files OCG_LoadScript path s).2.aborted = true := by
  unfold loadScript
  cases files path with
  | cannotOpen => exact h
  | readFails => rfl
  | content buffer =>
    by_cases hlen : buffer.length = 0
    · simp only [hlen, if_true]
      exact h
    · simp only [hlen, if_false]
      exact heng _ _ _ _ h

theorem aborted_scriptReader (w : Nat) (files : Path → FileRead)
    (OCG_LoadScript : Str → Nat → Str → State → Int × State)
    (heng : ∀ buffer length name st, st.aborted = true →
      (OCG_LoadScript buffer length name st).2.aborted = true)
    (name : Str) (s : State) (h : s.aborted = true) :
    (scriptReader w files OCG_LoadScript name s).2.aborted = true := by
  rcases scriptReader_state_cases w files OCG_LoadScript name s with e | e | ⟨path, e⟩
  · rw [e]
    exact h
  · rw [e]
    exact h
  · rw [e]
    exact aborted_loadScript files OCG_LoadScript heng path s h

/-- Nothing the engine does during a call removes the record of a terminated process. -/
theorem aborted_run (w : Nat) (files : Path → FileRead) (b : Behaviour) (s : State)
    (h : s.aborted = true) : (run w files b s).2.aborted = true := by
  induction b generalizing s with
  | ret result => exact h
  | cardReader code next ih =>
    rw [run]
    exact ih _ h
  | scriptReader name load next ihload ihnext =>
    rw [run]
    exact ihnext _ _ (aborted_scriptReader w files _
      (fun buffer length nm st hst => ihload buffer length nm st hst) name s h)
  | logHandler string type next ih =>
    rw [run]
    exact ih _ h

/-- The record of a terminated process is kept to the end of `main`: when the globals
at the return are not marked, no read has failed on the way. -/
theorem aborted_session (api : ApiConstants) (w : Nat) (files : Path → FileRead)
    (c : Core) (utility constant : Path) (s : State) (h : s.aborted = true) :
    (session api w files c utility constant s).state.aborted = true := by
  have hcall : ∀ (call : EngineCall) (b : Behaviour) (t : State), t.aborted = true →
      (callEngine w files call b t).2.aborted = true := fun call b t ht =>
    aborted_run w files b _ ht
  have hload : ∀ (path : Path) (t : State), t.aborted = true →
      (loadBaseScript w files c path t).2.aborted = true := fun path t ht =>
    aborted_loadScript files _ (fun _ _ _ st hst => aborted_run w files _ st hst) path t ht
  have hcards : ∀ (codes : List Nat) (t : State), t.aborted = true →
      (codes.foldl (newCard w files c) t).aborted = true := by
    intro codes
    induction codes with
    | nil => exact fun t ht => ht
    | cons k ks ih =>
      intro t ht
      rw [List.foldl_cons]
      exact ih _ (hcall _ _ _ ht)
  have h1 : (getVersion s).aborted = true := h
  have h2 : (createDuel w files c (getVersion s)).2.aborted = true := hcall _ _ _ h1
  have h3 := hload constant _ h2
  have h4 := hload utility _ h3
  unfold session
  simp only
  split
  · exact h
  · split
    · exact h1
    · split
      · exact hcall _ _ _ h2
      · split
        · exact h3
        · split
          · exact h4
          · exact hcall _ _ _ (hcards _ _ h4)

/-- C14, evaluated at a failing input: with code 7 registered for the empty file
r/c7.lua and status_code at success, the lookup of c7.lua resolves to that file, returns
0 and leaves status_code at success, whereas the unresolved lookups of c8.lua and of
missing.lua in the same registry set it to failure.  And with constant.lua, utility.lua
and an empty c4.lua in the current directory, and an engine that asks for c4.lua when
the card is instantiated and reports nothing, main returns 0. -/
theorem C14_empty_file_not_marked :
    ResolvesTo 64 { State.init with scripts := [(7, "r/c7.lua".toList)] } "c7.lua".toList
      "r/c7.lua".toList ∧
    scriptReader 64 (fun _ => FileRead.content []) (fun _ _ _ st => (1, st)) "c7.lua".toList
        { State.init with scripts := [(7, "r/c7.lua".toList)] } =
      (0, { State.init with scripts := [(7, "r/c7.lua".toList)] }) ∧
    (scriptReader 64 (fun _ => FileRead.content []) (fun _ _ _ st => (1, st)) "c7.lua".toList
        { State.init with scripts := [(7, "r/c7.lua".toList)] }).2.status_code
      = EXIT_SUCCESS ∧
    (scriptReader 64 (fun _ => FileRead.content []) (fun _ _ _ st => (1, st)) "c8.lua".toList
        { State.init with scripts := [(7, "r/c7.lua".toList)] }).2.status_code
      = EXIT_FAILURE ∧
    (scriptReader 64 (fun _ => FileRead.content []) (fun _ _ _ st => (1, st))
        "missing.lua".toList
        { State.init with scripts := [(7, "r/c7.lua".toList)] }).2.status_code
      = EXIT_FAILURE ∧
    main ⟨10, 0, 0⟩ 64
        (fun p => if p = "./c4.lua".toList then FileRead.content []
          else FileRead.content "x".toList)
        (some ⟨true, true, true, true, true, 10, 0, Behaviour.ret 0, Behaviour.ret 0,
          fun info => Behaviour.scriptReader (canonicalName info.code)
            (fun _ _ _ => Behaviour.ret 1) (fun _ => Behaviour.ret 0),
          fun _ _ _ => Behaviour.ret 1⟩)
        [("constant.lua".toList, Node.file), ("utility.lua".toList, Node.file),
          ("c4.lua".toList, Node.file)] [] =
      some ⟨0, ExitPath.completed,
        { State.init with
          loading_card := 4
          scripts := [(4, "./c4.lua".toList)]
          non_card_scripts := [("constant.lua".toList, "./constant.lua".toList),
            ("utility.lua".toList, "./utility.lua".toList)]
          calls := [EngineCall.GetVersion, EngineCall.CreateDuel,
            EngineCall.LoadScript "x".toList 1 "constant.lua".toList,
            EngineCall.LoadScript "x".toList 1 "utility.lua".toList,
            EngineCall.DuelNewCard (cardInfo 4), EngineCall.DestroyDuel] }⟩ := by
  refine ⟨Or.inl ⟨7, by decide, by decide, by decide⟩, by decide, by decide, by decide,
    by decide, by decide⟩

/-- C18, refuted as stated: the current directory holds constant.lua and utility.lua,
every file is accepted, and the engine calls the log handler once while the session is
destroyed.  No fatal step occurs and status_code is success after the last card has
been instantiated, yet main returns 1. -/
theorem C18_counterexample :
    ∃ s t,
      scanFolders 64
          (foldersToScan [("constant.lua".toList, Node.file), ("utility.lua".toList, Node.file)]
            []) State.init = some s ∧
      NoFatalStep ⟨10, 0, 0⟩ 64 (fun _ => FileRead.content "x".toList)
        (some ⟨true, true, true, true, true, 10, 0, Behaviour.ret 0,
          Behaviour.logHandler [] OCG_LogTypes.OCG_LOG_TYPE_ERROR (Behaviour.ret 0),
          fun _ => Behaviour.ret 0, fun _ _ _ => Behaviour.ret 1⟩) s t ∧
      t.status_code = EXIT_SUCCESS ∧
      (main ⟨10, 0, 0⟩ 64 (fun _ => FileRead.content "x".toList)
        (some ⟨true, true, true, true, true, 10, 0, Behaviour.ret 0,
          Behaviour.logHandler [] OCG_LogTypes.OCG_LOG_TYPE_ERROR (Behaviour.ret 0),
          fun _ => Behaviour.ret 0, fun _ _ _ => Behaviour.ret 1⟩)
        [("constant.lua".toList, Node.file), ("utility.lua".toList, Node.file)] []).map
        (fun r => r.returned) = some 1 := by
  refine ⟨{ State.init with
      non_card_scripts := [("constant.lua".toList, "./constant.lua".toList),
        ("utility.lua".toList, "./utility.lua".toList)] }, _, by decide,
    ⟨"./utility.lua".toList, "./constant.lua".toList, _, by decide, by decide, rfl,
      ⟨rfl, rfl, rfl, rfl, rfl⟩, ⟨by decide, by decide⟩, by decide, by decide, by decide, rfl⟩,
    by decide, by decide⟩

/-- C18 as amended: whenever main returns, it returns 0 or 1, and it returns 0 exactly
when no fatal step occurred (utility.lua and constant.lua registered, library and five
entry points loaded, version accepted, session created, constant.lua and utility.lua
loaded) and status_code is success when it is read for the return value, after
OCG_DestroyDuel has returned; in every other case it returns 1.  Returning 0 implies
that status_code was success after the last card was instantiated, and is equivalent to
it when the engine invokes no callback while the session is destroyed.  A return of
main means that the scan completed and no read terminated the process. -/
theorem C18_exit_code (api : ApiConstants) (w : Nat) (files : Path → FileRead)
    (core : Option Core) (cwd : List (Str × Node)) (argv : List (Path × List (Str × Node)))
    (r : MainResult) (h : main api w files core cwd argv = some r) :
    ∃ s, scanFolders w (foldersToScan cwd argv) State.init = some s ∧
      r.state.aborted = false ∧
      (r.returned = 0 ∨ r.returned = 1) ∧
      (r.returned = 0 ↔
        ∃ t c, NoFatalStep api w files core s t ∧ core = some c ∧
          (destroyDuel w files c t).status_code = EXIT_SUCCESS) ∧
      ((¬ ∃ t c, NoFatalStep api w files core s t ∧ core = some c ∧
          (destroyDuel w files c t).status_code = EXIT_SUCCESS) → r.returned = 1) ∧
      (r.returned = 0 →
        ∃ t, NoFatalStep api w files core s t ∧ t.status_code = EXIT_SUCCESS) ∧
      ((∀ c, core = some c → ∃ x, c.OCG_DestroyDuel = Behaviour.ret x) →
        (r.returned = 0 ↔
          ∃ t, NoFatalStep api w files core s t ∧ t.status_code = EXIT_SUCCESS)) := by
  obtain ⟨s, hscan, hab, hr⟩ := (main_eq_some api w files core cwd argv r).mp h
  have hs : s.status_code = EXIT_SUCCESS := scanFolders_status w _ _ s hscan
  refine ⟨s, hscan, by rw [hr]; exact hab, ?_⟩
  rw [hr]
  rcases driver_cases api w files core s with ⟨t, c, hnf, hcore, hd⟩ | ⟨hno, hret, _⟩
  · -- no fatal step: the status read after the session is destroyed is returned
    have hkt : StatusKept s t := noFatalStep_statusKept api w files core s t hnf
    have hkd : StatusKept t (destroyDuel w files c t) := statusKept_destroyDuel w files c t
    have ht01 : t.status_code = EXIT_SUCCESS ∨ t.status_code = EXIT_FAILURE :=
      hkt.2 (Or.inl hs)
    have hd01 := hkd.2 ht01
    have hback : (destroyDuel w files c t).status_code = EXIT_SUCCESS →
        t.status_code = EXIT_SUCCESS := by
      intro h0
      rcases ht01 with h1 | h1
      · exact h1
      · have := hkd.1 h1
        rw [this] at h0
        exact absurd h0 (by decide)
    have hiff : (destroyDuel w files c t).status_code = 0 ↔
        ∃ u d, NoFatalStep api w files core s u ∧ core = some d ∧
          (destroyDuel w files d u).status_code = EXIT_SUCCESS := by
      constructor
      · intro h0
        exact ⟨t, c, hnf, hcore, h0⟩
      · rintro ⟨u, d, hu, hd1, hus⟩
        have e1 : u = t := noFatalStep_unique api w files core s u t hu hnf
        have e2 : d = c := by
          rw [hcore] at hd1
          exact (Option.some.inj hd1).symm
        rw [e1, e2] at hus
        exact hus
    rw [hd]
    refine ⟨?_, hiff, ?_, ?_, ?_⟩
    · rcases hd01 with h0 | h0
      · exact Or.inl h0
      · exact Or.inr h0
    · intro hnot
      rcases hd01 with h0 | h0
      · exact absurd (hiff.mp h0) hnot
      · exact h0
    · intro h0
      exact ⟨t, hnf, hback h0⟩
    · intro hsilent
      obtain ⟨x, hx⟩ := hsilent c hcore
      have heq := destroyDuel_silent w files c x t hx
      constructor
      · intro h0
        exact ⟨t, hnf, hback h0⟩
      · rintro ⟨u, hu, hus⟩
        have e1 : u = t := noFatalStep_unique api w files core s u t hu hnf
        rw [e1] at hus
        show (destroyDuel w files c t).status_code = 0
        rw [heq]
        exact hus
  · -- a fatal step: failure is returned
    have h1 : (driver api w files core s).returned = 1 := hret
    have hnone : ¬ ∃ t c, NoFatalStep api w files core s t ∧ core = some c ∧
        (destroyDuel w files c t).status_code = EXIT_SUCCESS := by
      rintro ⟨t, _, ht, _⟩
      exact hno ⟨t, ht⟩
    refine ⟨Or.inr h1, ?_, fun _ => h1, ?_, ?_⟩
    · constructor
      · intro h0
        rw [h1] at h0
        exact absurd h0 (by decide)
      · intro hex
        exact absurd hex hnone
    · intro h0
      rw [h1] at h0
      exact absurd h0 (by decide)
    · intro _
      constructor
      · intro h0
        rw [h1] at h0
        exact absurd h0 (by decide)
      · rintro ⟨t, ht, _⟩
        exact absurd ⟨t, ht⟩ hno

/-- Witness of C18 as amended: the current directory holds constant.lua and utility.lua,
every file is accepted and the engine reports nothing; main returns 0, so no fatal step
occurred and the status after the card loop is success. -/
theorem C18_exit_code_witness :
    main ⟨10, 0, 0⟩ 64 (fun _ => FileRead.content "x".toList)
        (some ⟨true, true, true, true, true, 10, 0, Behaviour.ret 0, Behaviour.ret 0,
          fun _ => Behaviour.ret 0, fun _ _ _ => Behaviour.ret 1⟩)
        [("constant.lua".toList, Node.file), ("utility.lua".toList, Node.file)] [] =
      some ⟨0, ExitPath.completed,
        { State.init with
          non_card_scripts := [("constant.lua".toList, "./constant.lua".toList),
            ("utility.lua".toList, "./utility.lua".toList)]
          calls := [EngineCall.GetVersion, EngineCall.CreateDuel,
            EngineCall.LoadScript "x".toList 1 "constant.lua".toList,
            EngineCall.LoadScript "x".toList 1 "utility.lua".toList,
            EngineCall.DestroyDuel] }⟩ ∧
    ∃ s t,
      NoFatalStep ⟨10, 0, 0⟩ 64 (fun _ => FileRead.content "x".toList)
        (some ⟨true, true, true, true, true, 10, 0, Behaviour.ret 0, Behaviour.ret 0,
          fun _ => Behaviour.ret 0, fun _ _ _ => Behaviour.ret 1⟩) s t ∧
      t.status_code = EXIT_SUCCESS :=
  have h := C18_exit_code ⟨10, 0, 0⟩ 64 (fun _ => FileRead.content "x".toList)
    (some ⟨true, true, true, true, true, 10, 0, Behaviour.ret 0, Behaviour.ret 0,
      fun _ => Behaviour.ret 0, fun _ _ _ => Behaviour.ret 1⟩)
    [("constant.lua".toList, Node.file), ("utility.lua".toList, Node.file)] []
    ⟨0, ExitPath.completed,
      { State.init with
        non_card_scripts := [("constant.lua".toList, "./constant.lua".toList),
          ("utility.lua".toList, "./utility.lua".toList)]
        calls := [EngineCall.GetVersion, EngineCall.CreateDuel,
          EngineCall.LoadScript "x".toList 1 "constant.lua".toList,
          EngineCall.LoadScript "x".toList 1 "utility.lua".toList,
          EngineCall.DestroyDuel] }⟩ (by decide)
  ⟨by decide, h.elim fun s hs => (hs.2.2.2.2.2.1 rfl).elim fun t ht => ⟨s, t, ht⟩⟩

/-! ## C19: the registry invariant -/

theorem not_excluded_of_mustNotParseAsCard (k : Nat) (h : mustNotParseAsCard k = false) :
    k ∉ [419, 420, 421, 422, 151000000] := by
  simp only [mustNotParseAsCard, Bool.or_eq_false_iff, Bool.and_eq_false_iff,
    decide_eq_false_iff_not, beq_eq_false_iff_ne] at h
  simp only [List.mem_cons, List.mem_singleton, List.not_mem_nil, or_false, not_or]
  omega

theorem mustNotParseAsCard_of_not_excluded (k : Nat)
    (h : k ∉ [419, 420, 421, 422, 151000000]) : mustNotParseAsCard k = false := by
  simp only [List.mem_cons, List.mem_singleton, List.not_mem_nil, or_false, not_or] at h
  simp only [mustNotParseAsCard, Bool.or_eq_false_iff, Bool.and_eq_false_iff,
    decide_eq_false_iff_not, beq_eq_false_iff_ne]
  omega

/-- One `parseScript` keeps the registry invariant. -/
theorem registryOK_parseScript (w : Nat) (path : Path) (s : State) (h : RegistryOK w s) :
    RegistryOK w (parseScript w path s) := by
  obtain ⟨hcode, hname⟩ := codeKey_nameKey_spec w path
  rcases parseScript_cases w path with ⟨c, h1, _, h3⟩ | ⟨_, h2, h3⟩ | ⟨_, _, h3⟩
  · rw [h3]
    refine ⟨?_, h.2⟩
    intro k p hmem
    rcases mem_emplace c path _ (k, p) hmem with hm | hm
    · exact h.1 k p hm
    · obtain ⟨hk, hp⟩ := Prod.mk.inj hm
      obtain ⟨ht, hx⟩ := (hcode c).mp h1
      rw [hk, hp, tryParseCode_filename]
      exact ⟨not_excluded_of_mustNotParseAsCard c hx, ht⟩
  · rw [h3]
    refine ⟨h.1, ?_⟩
    intro n p hmem
    rcases mem_emplace (filename path) path _ (n, p) hmem with hm | hm
    · exact h.2 n p hm
    · obtain ⟨hn, hp⟩ := Prod.mk.inj hm
      rw [hn, hp, extension_filename]
      exact ⟨rfl, (hname _ h2).2⟩
  · rw [h3]
    exact h

theorem registryOK_parseScripts (w : Nat) (files : List Path) (s : State)
    (h : RegistryOK w s) : RegistryOK w (parseScripts w files s) := by
  induction files generalizing s with
  | nil => exact h
  | cons f fs ih => exact ih _ (registryOK_parseScript w f s h)

theorem registryOK_init (w : Nat) : RegistryOK w State.init :=
  ⟨fun _ _ h => absurd h (List.not_mem_nil _), fun _ _ h => absurd h (List.not_mem_nil _)⟩

/-- C19: the registry invariant.  In the empty registry, and after any sequence of
parseScript calls from it, scripts has no key among 419, 420, 421, 422, 151000000, every
entry (k, p) of scripts has tryParseCode of the filename of p equal to k, and every key
of non_card_scripts is the filename of its path and has extension .lua.  Every
parseScript call preserves this. -/
theorem C19_registry_invariant (w : Nat) :
    RegistryOK w State.init ∧
    (∀ path s, RegistryOK w s → RegistryOK w (parseScript w path s)) ∧
    (∀ files, RegistryOK w (parseScripts w files State.init)) :=
  ⟨registryOK_init w, fun path s h => registryOK_parseScript w path s h,
    fun files => registryOK_parseScripts w files State.init (registryOK_init w)⟩

/-- Witness of C19: the invariant after r/c4.lua and r/c419.lua. -/
theorem C19_registry_invariant_witness :
    RegistryOK 64 (parseScript 64 "r/c419.lua".toList
      (parseScript 64 "r/c4.lua".toList State.init)) :=
  (C19_registry_invariant 64).2.1 "r/c419.lua".toList _
    ((C19_registry_invariant 64).2.1 "r/c4.lua".toList State.init
      (C19_registry_invariant 64).1)

/-! ## C20: canonical names -/

theorem digitChar_toNat (d : Nat) (h : d < 10) : (digitChar d).toNat = 48 + d := by
  interval_cases d <;> rfl

theorem isdigit_digitChar (d : Nat) (h : d < 10) : isdigit (digitChar d) = true := by
  interval_cases d <;> rfl

theorem foldl_digits (b : Str) (x : Nat) :
    List.foldl (fun acc c => 10 * acc + (c.toNat - 48)) x b =
      x * 10 ^ b.length + digitsValue b := by
  induction b generalizing x with
  | nil => simp [digitsValue]
  | cons c cs ih =>
    simp only [List.foldl_cons, List.length_cons, digitsValue]
    rw [ih, ih (10 * 0 + (c.toNat - 48))]
    ring

theorem digitsValue_cons_digit (d : Nat) (h : d < 10) (acc : Str) :
    digitsValue (digitChar d :: acc) = d * 10 ^ acc.length + digitsValue acc := by
  have h1 : digitsValue (digitChar d :: acc) =
      List.foldl (fun a c => 10 * a + (c.toNat - 48)) (10 * 0 + ((digitChar d).toNat - 48))
        acc := rfl
  rw [h1, foldl_digits, digitChar_toNat d h]
  simp

theorem decimalAux_spec (fuel n : Nat) (acc : Str) (h : n < fuel) :
    digitsValue (decimalAux fuel n acc) = n * 10 ^ acc.length + digitsValue acc ∧
    ((∀ c ∈ acc, isdigit c = true) → ∀ c ∈ decimalAux fuel n acc, isdigit c = true) ∧
    decimalAux fuel n acc ≠ [] := by
  induction fuel generalizing n acc with
  | zero => omega
  | succ fuel ih =>
    unfold decimalAux
    by_cases hn : n < 10
    · simp only [hn, if_true]
      refine ⟨digitsValue_cons_digit n hn acc, ?_, by simp⟩
      intro hacc c hc
      rcases List.mem_cons.mp hc with rfl | hc
      · exact isdigit_digitChar n hn
      · exact hacc c hc
    · simp only [hn, if_false]
      have hlt : n / 10 < fuel := by omega
      have hmod : n % 10 < 10 := Nat.mod_lt _ (by norm_num)
      obtain ⟨i1, i2, i3⟩ := ih (n / 10) (digitChar (n % 10) :: acc) hlt
      refine ⟨?_, ?_, i3⟩
      · rw [i1, digitsValue_cons_digit _ hmod, List.length_cons, pow_succ]
        have := Nat.div_add_mod n 10
        calc n / 10 * (10 ^ acc.length * 10) + (n % 10 * 10 ^ acc.length + digitsValue acc)
            = (10 * (n / 10) + n % 10) * 10 ^ acc.length + digitsValue acc := by ring
          _ = n * 10 ^ acc.length + digitsValue acc := by rw [this]
      · intro hacc
        apply i2
        intro c hc
        rcases List.mem_cons.mp hc with rfl | hc
        · exact isdigit_digitChar _ hmod
        · exact hacc c hc

/-- The decimal text of `k` is a non-empty run of digits whose value is `k`. -/
theorem decimal_spec (k : Nat) :
    digitsValue (decimal k) = k ∧ (∀ c ∈ decimal k, isdigit c = true) ∧ decimal k ≠ [] := by
  obtain ⟨h1, h2, h3⟩ := decimalAux_spec (k + 1) k [] (Nat.lt_succ_self k)
  refine ⟨?_, h2 (fun c hc => absurd hc (List.not_mem_nil _)), h3⟩
  rw [show decimal k = decimalAux (k + 1) k [] from rfl, h1]
  simp [digitsValue]

theorem filename_canonicalName (k : Nat) : filename (canonicalName k) = canonicalName k := by
  have hno : '/' ∉ canonicalName k := by
    unfold canonicalName
    intro hmem
    rcases List.mem_cons.mp hmem with h | h
    · exact absurd h (by decide)
    · rcases List.mem_append.mp h with h | h
      · have := (decimal_spec k).2.1 _ h
        revert this
        decide
      · revert h
        decide
  unfold filename
  rw [(rfind_eq_none_iff '/' _).mpr hno]

/-- The canonical name of a 32-bit code parses back to the code. -/
theorem tryParseCode_canonicalName (w : Nat) (hw : 32 ≤ w) (k : Nat) (hk : k < 2 ^ 32) :
    tryParseCode w (canonicalName k) = some k := by
  obtain ⟨h1, h2, h3⟩ := decimal_spec k
  have := tryParseCode_card_name w (canonicalName k) (decimal k) hw h3 h2
    (by rw [h1]; exact hk) (filename_canonicalName k)
  rw [h1] at this
  exact this

theorem mem_of_find {κ : Type} [DecidableEq κ] (k : κ) (p : Path) (m : List (κ × Path))
    (h : find k m = some p) : (k, p) ∈ m := by
  induction m with
  | nil => simp [find] at h
  | cons e m ih =>
    obtain ⟨k1, v1⟩ := e
    by_cases hk : k1 = k
    · simp only [find, hk, if_true, Option.some.injEq] at h
      rw [hk, h]
      exact List.mem_cons_self _ _
    · simp only [find, hk, if_false] at h
      exact List.mem_cons_of_mem _ (ih h)

theorem tryParseCode_lt (w : Nat) (p : Path) (k : Nat) (h : tryParseCode w p = some k) :
    k < 2 ^ 32 := by
  unfold tryParseCode at h
  split at h
  · simp at h
  · split at h
    · simp only [Option.some.injEq] at h
      rw [← h]
      exact Nat.mod_lt _ (by norm_num)
    · simp at h

/-- C20: lookup agrees with registration on canonical names.  For every 32-bit k the
name c, decimal text of k, .lua parses to k; and in a registry built by parseScript from
the empty one, for every key k of scripts with path p, scriptReader of the canonical
name of k resolves through scripts to p and returns what loadScript of p gives, with
the globals loadScript leaves: the unresolved branch, which would write status_code,
is not taken. -/
theorem C20_canonical_lookup (w : Nat) (hw : 32 ≤ w) :
    (∀ k, k < 2 ^ 32 → tryParseCode w (canonicalName k) = some k) ∧
    (∀ (inputs : List Path) (k : Nat) (p : Path) (files : Path → FileRead)
      (OCG_LoadScript : Str → Nat → Str → State → Int × State),
      find k (parseScripts w inputs State.init).scripts = some p →
      ResolvesTo w (parseScripts w inputs State.init) (canonicalName k) p ∧
      scriptReader w files OCG_LoadScript (canonicalName k)
          (parseScripts w inputs State.init) =
        (if (loadScript files OCG_LoadScript p (parseScripts w inputs State.init)).1 = true
          then 1 else 0,
          (loadScript files OCG_LoadScript p (parseScripts w inputs State.init)).2)) := by
  refine ⟨fun k hk => tryParseCode_canonicalName w hw k hk, ?_⟩
  intro inputs k p files OCG_LoadScript hfind
  have hok := registryOK_parseScripts w inputs State.init (registryOK_init w)
  obtain ⟨hex, hparse⟩ := hok.1 k p (mem_of_find k p _ hfind)
  have hk : k < 2 ^ 32 := tryParseCode_lt w _ k hparse
  have hres : ResolvesTo w (parseScripts w inputs State.init) (canonicalName k) p :=
    Or.inl ⟨k, tryParseCode_canonicalName w hw k hk,
      mustNotParseAsCard_of_not_excluded k hex, hfind⟩
  exact ⟨hres, scriptReader_resolved w files OCG_LoadScript _ p _ hres⟩

/-- Witness of C20: code 7, registered from r/c007.lua, is found under the name c7.lua. -/
theorem C20_canonical_lookup_witness :
    tryParseCode 64 (canonicalName 7) = some 7 ∧
    scriptReader 64 (fun _ => FileRead.content "x".toList) (fun _ _ _ st => (1, st)) (canonicalName 7)
        (parseScripts 64 ["r/c007.lua".toList] State.init) =
      (1, { State.init with
        scripts := [(7, "r/c007.lua".toList)]
        calls := [EngineCall.LoadScript "x".toList 1 "c007.lua".toList] }) :=
  have h := C20_canonical_lookup 64 (by decide)
  ⟨h.1 7 (by decide),
    ((h.2 ["r/c007.lua".toList] 7 "r/c007.lua".toList (fun _ => FileRead.content "x".toList)
      (fun _ _ _ st => (1, st)) (by decide)).2).trans (by decide)⟩

end ScriptChecker
